import Mathlib

/-!
# Sequential semantics of the `concurrency` containers

A shallow embedding of `lock_free_queue.hpp`, `lock_free_stack.hpp` and
`striped_hash_set.hpp`, executed by one thread.

* Nodes live on an explicit free store (`Heap`): an address is a natural
  number, `nullptr` is `none`, `new` hands out the next unused address and
  `delete` empties the cell.  Reading through a null or dangling pointer,
  indexing a vector out of range and a remainder modulo zero are undefined
  behaviour: the operation yields `none`.  A call that is left by an
  exception (`std::length_error` of an oversized `std::vector`) yields `none`
  as well: it does not return.
* `while (true)` loops carry a fuel argument; running out of fuel is `none`
  as well, and the theorems show how much fuel is enough.
* `std::atomic<Node*>` cells are plain values; `compare_exchange_strong` is
  the usual compare-and-swap, `compare_exchange_weak` may in addition fail
  spuriously, as many times as the caller of the model says.
* `size_t` arithmetic wraps modulo `2 ^ 64`: the in-flight counter of the
  queue, the bucket-count products of the hash set and the counters of the
  readers-writer lock.  The constructor parameters and the hash values are
  `size_t` values given as naturals.
* Every method of `ReadWriteMutex` runs under its internal mutex; the lock is
  a transition system whose steps are the atomic sections of its methods.

The definitions come first, the theorems after them.
-/

namespace Concurrency

/-- The number of values of a `size_t`. -/
def SIZE_T_RANGE : Nat := 2 ^ 64

/-! ## Free store -/

/-- Node of the queue and of the stack: the element and the atomic `next_`
pointer (`none` is `nullptr`). -/
structure Node (T : Type) where
  element_ : T
  next_ : Option Nat

/-- The free store: `cells a` is the live node at address `a` (`none` when no
node was allocated there or it was deleted), `fresh` the next address handed
out by `new`. -/
structure Heap (T : Type) where
  cells : Nat → Option (Node T)
  fresh : Nat

namespace Heap

variable {T : Type}

/-- The store before any allocation. -/
def empty : Heap T := { cells := fun _ => none, fresh := 0 }

/-- Allocation `new Node{...}`: a fresh address, returned with the new store. -/
def alloc (h : Heap T) (n : Node T) : Heap T × Nat :=
  ({ cells := fun a => if a = h.fresh then some n else h.cells a, fresh := h.fresh + 1 }, h.fresh)

/-- Read through a pointer: undefined on `nullptr` and on a deleted node. -/
def deref (h : Heap T) (p : Option Nat) : Option (Node T) :=
  match p with
  | none => none
  | some a => h.cells a

/-- Assignment `p->next_.store(nx)`. -/
def storeNext (h : Heap T) (p : Option Nat) (nx : Option Nat) : Option (Heap T) :=
  match p with
  | none => none
  | some a =>
    match h.cells a with
    | none => none
    | some n =>
      some { h with cells := fun b => if b = a then some { n with next_ := nx } else h.cells b }

/-- Statement `delete p`: a no-op on `nullptr`, undefined on a node that is
not live. -/
def delete (h : Heap T) (p : Option Nat) : Option (Heap T) :=
  match p with
  | none => some h
  | some a =>
    match h.cells a with
    | none => none
    | some _ => some { h with cells := fun b => if b = a then none else h.cells b }

end Heap

/-- Call `cell.compare_exchange_strong(expected, desired)` run by a single
thread: the success flag, the new content of the cell and the new value of
`expected`. -/
def compare_exchange_strong (cell expected desired : Option Nat) :
    Bool × Option Nat × Option Nat :=
  if cell = expected then (true, desired, expected) else (false, cell, cell)

/-- Call `cell.compare_exchange_weak(expected, desired)`: as the strong one,
but it may fail although the values agree, when `spurious` says so. -/
def compare_exchange_weak (spurious : Bool) (cell expected desired : Option Nat) :
    Bool × Option Nat × Option Nat :=
  if spurious then (false, cell, cell) else compare_exchange_strong cell expected desired

/-! ## Lock-free queue -/

/-- State of a `LockFreeQueue<T>`: the free store and the four atomics. -/
structure LockFreeQueue (T : Type) where
  heap : Heap T
  head_ : Option Nat
  tail_ : Option Nat
  garbage_head_ : Option Nat
  operations_counter_ : Nat

namespace LockFreeQueue

variable {T : Type}

/-- Constructor `LockFreeQueue()`: one dummy node, pointed to by all three pointers. -/
def new [Inhabited T] : LockFreeQueue T :=
  let r := (Heap.empty : Heap T).alloc { element_ := default, next_ := none }
  { heap := r.1, head_ := some r.2, tail_ := some r.2, garbage_head_ := some r.2,
    operations_counter_ := 0 }

/-- Increment `++operations_counter_` of the atomic `size_t`. -/
def incr (q : LockFreeQueue T) : LockFreeQueue T :=
  { q with operations_counter_ := (q.operations_counter_ + 1) % SIZE_T_RANGE }

/-- Decrement `--operations_counter_` of the atomic `size_t`. -/
def decr (q : LockFreeQueue T) : LockFreeQueue T :=
  { q with operations_counter_ :=
      if q.operations_counter_ = 0 then SIZE_T_RANGE - 1 else q.operations_counter_ - 1 }

/-- Loop of `DeleteGarbage(head)`: delete the nodes from `garbage_head_` up to,
not including, `head`. -/
def DeleteGarbage : Nat → Option Nat → LockFreeQueue T → Option (LockFreeQueue T)
  | 0, _, _ => none
  | fuel + 1, head, q =>
    if q.garbage_head_ = head then some q
    else do
      let garbage := q.garbage_head_
      let n ← q.heap.deref q.garbage_head_
      let h ← q.heap.delete garbage
      DeleteGarbage fuel head { q with garbage_head_ := n.next_, heap := h }

/-- The `while (true)` loop of `Enqueue`; yields the state and `curr_tail` at the `break`. -/
def EnqueueLoop (new_tail : Nat) : Nat → LockFreeQueue T → Option (LockFreeQueue T × Option Nat)
  | 0, _ => none
  | fuel + 1, q => do
    let curr_tail := q.tail_
    let n ← q.heap.deref curr_tail
    if n.next_ = none then
      let r := compare_exchange_strong n.next_ none (some new_tail)
      let h ← q.heap.storeNext curr_tail r.2.1
      if r.1 then some ({ q with heap := h }, curr_tail)
      else EnqueueLoop new_tail fuel { q with heap := h }
    else
      let r := compare_exchange_strong q.tail_ curr_tail n.next_
      EnqueueLoop new_tail fuel { q with tail_ := r.2.1 }

/-- Method `Enqueue(element)`. -/
def Enqueue (fuel : Nat) (element : T) (q : LockFreeQueue T) : Option (LockFreeQueue T) := do
  let q := q.incr
  let a := q.heap.alloc { element_ := element, next_ := none }
  let q := { q with heap := a.1 }
  let new_tail := a.2
  let (q, curr_tail) ← EnqueueLoop new_tail fuel q
  let r := compare_exchange_strong q.tail_ curr_tail (some new_tail)
  let q := { q with tail_ := r.2.1 }
  some q.decr

/-- The `while (true)` loop of `Dequeue`; `gfuel` is the fuel of the inner
`DeleteGarbage` loop.  The result is `some v` for `true` with `element = v`,
`none` for `false`. -/
def DequeueLoop (gfuel : Nat) : Nat → LockFreeQueue T → Option (LockFreeQueue T × Option T)
  | 0, _ => none
  | fuel + 1, q => do
    let curr_head := q.head_
    let curr_tail := q.tail_
    let hd ← q.heap.deref curr_head
    if curr_head = curr_tail then
      if hd.next_ = none then
        some (q, none)
      else
        let r := compare_exchange_strong q.tail_ curr_head hd.next_
        DequeueLoop gfuel fuel { q with tail_ := r.2.1 }
    else
      let r := compare_exchange_strong q.head_ curr_head hd.next_
      let q := { q with head_ := r.2.1 }
      if r.1 then
        let old ← q.heap.deref curr_head
        let nx ← q.heap.deref old.next_
        let element := nx.element_
        let curr_head := q.head_
        if q.operations_counter_ = 1 then
          let q ← DeleteGarbage gfuel curr_head q
          some (q.decr, some element)
        else
          some (q.decr, some element)
      else DequeueLoop gfuel fuel q

/-- Method `Dequeue(element)`. -/
def Dequeue (fuel : Nat) (q : LockFreeQueue T) : Option (LockFreeQueue T × Option T) :=
  DequeueLoop fuel fuel q.incr

end LockFreeQueue

/-- A call on the queue. -/
inductive QueueOp (T : Type) where
  | enqueue (v : T)
  | dequeue

/-- A sequential history on the queue: the final state and the results of the
`Dequeue` calls in call order. -/
def runQueue {T : Type} (fuel : Nat) :
    LockFreeQueue T → List (QueueOp T) → Option (LockFreeQueue T × List (Option T))
  | q, [] => some (q, [])
  | q, QueueOp.enqueue v :: ops => do
    let q ← q.Enqueue fuel v
    runQueue fuel q ops
  | q, QueueOp.dequeue :: ops => do
    let r ← q.Dequeue fuel
    let rest ← runQueue fuel r.1 ops
    some (rest.1, r.2 :: rest.2)

/-- `Chain cells p l q`: following `next_` from `p` visits exactly the nodes
of `l` (address and element) in order and arrives at `q`. -/
def Chain {T : Type} (cells : Nat → Option (Node T)) :
    Option Nat → List (Nat × T) → Option Nat → Prop
  | p, [], q => p = q
  | p, x :: l, q => p = some x.1 ∧ ∃ nx, cells x.1 = some ⟨x.2, nx⟩ ∧ Chain cells nx l q

/-- Representation invariant of the queue between calls: the nodes from
`garbage_head_` are the retired nodes `g`, then the node `hd` under `head_`,
then the nodes `l` holding the queued values; `tail_` is the last of them. -/
structure QInv {T : Type} (q : LockFreeQueue T) (g : List (Nat × T)) (hd : Nat × T)
    (l : List (Nat × T)) : Prop where
  chain : Chain q.heap.cells q.garbage_head_ (g ++ hd :: l) none
  nodup : ((g ++ hd :: l).map Prod.fst).Nodup
  head : q.head_ = some hd.1
  tail : q.tail_ = some (l.getLast?.getD hd).1
  unused : ∀ a, q.heap.fresh ≤ a → q.heap.cells a = none

/-- The FIFO queue of the specification: the queued values after a history,
and what its `dequeue` calls return. -/
def specQueue {T : Type} : List T → List (QueueOp T) → List T × List (Option T)
  | s, [] => (s, [])
  | s, QueueOp.enqueue v :: ops => specQueue (s ++ [v]) ops
  | s, QueueOp.dequeue :: ops =>
    match s with
    | [] => ((specQueue [] ops).1, none :: (specQueue [] ops).2)
    | v :: s => ((specQueue s ops).1, some v :: (specQueue s ops).2)

/-- The values passed to `Enqueue` in a history, in call order. -/
def enqueued {T : Type} : List (QueueOp T) → List T
  | [] => []
  | QueueOp.enqueue v :: ops => v :: enqueued ops
  | QueueOp.dequeue :: ops => enqueued ops


/-! ## Lock-free stack -/

/-- State of a `LockFreeStack<T>`: the free store and the two atomics. -/
structure LockFreeStack (T : Type) where
  heap : Heap T
  top_ : Option Nat
  garbage_top_ : Option Nat

namespace LockFreeStack

variable {T : Type}

/-- Constructor `LockFreeStack()`: both pointers are null. -/
def new : LockFreeStack T :=
  { heap := Heap.empty, top_ := none, garbage_top_ := none }

/-- The loop `while (!top_.compare_exchange_weak(curr_top, new_top))
new_top->next_.store(curr_top);` of `Push`.  The weak exchange fails
spuriously `spurious` more times. -/
def PushLoop (new_top : Nat) :
    Nat → Nat → Option Nat → LockFreeStack T → Option (LockFreeStack T)
  | 0, _, _, _ => none
  | fuel + 1, spurious, curr_top, s =>
    let r := compare_exchange_weak (decide (0 < spurious)) s.top_ curr_top (some new_top)
    let s := { s with top_ := r.2.1 }
    if r.1 then some s
    else do
      let h ← s.heap.storeNext (some new_top) r.2.2
      PushLoop new_top fuel (spurious - 1) r.2.2 { s with heap := h }

/-- Method `Push(element)`. -/
def Push (fuel spurious : Nat) (element : T) (s : LockFreeStack T) :
    Option (LockFreeStack T) := do
  let a := s.heap.alloc { element_ := element, next_ := none }
  let s := { s with heap := a.1 }
  let new_top := a.2
  let curr_top := s.top_
  let h ← s.heap.storeNext (some new_top) curr_top
  PushLoop new_top fuel spurious curr_top { s with heap := h }

/-- The loop `while (!garbage_top_.compare_exchange_weak(curr_garbage_top, garbage))
garbage->next_.store(curr_garbage_top);` of `PushGarbage`. -/
def PushGarbageLoop (garbage : Option Nat) :
    Nat → Nat → Option Nat → LockFreeStack T → Option (LockFreeStack T)
  | 0, _, _, _ => none
  | fuel + 1, spurious, curr_garbage_top, s =>
    let r := compare_exchange_weak (decide (0 < spurious)) s.garbage_top_ curr_garbage_top garbage
    let s := { s with garbage_top_ := r.2.1 }
    if r.1 then some s
    else do
      let h ← s.heap.storeNext garbage r.2.2
      PushGarbageLoop garbage fuel (spurious - 1) r.2.2 { s with heap := h }

/-- Method `PushGarbage(garbage)`. -/
def PushGarbage (fuel spurious : Nat) (garbage : Option Nat) (s : LockFreeStack T) :
    Option (LockFreeStack T) := do
  let curr_garbage_top := s.garbage_top_
  let h ← s.heap.storeNext garbage curr_garbage_top
  PushGarbageLoop garbage fuel spurious curr_garbage_top { s with heap := h }

/-- The `while (true)` loop of `Pop`; `gfuel` and `spurious` belong to the
inner `PushGarbage`.  The result is `some v` for `true` with `element = v`,
`none` for `false`. -/
def PopLoop (gfuel spurious : Nat) :
    Nat → Option Nat → LockFreeStack T → Option (LockFreeStack T × Option T)
  | 0, _, _ => none
  | fuel + 1, curr_top, s =>
    if curr_top = none then some (s, none)
    else do
      let n ← s.heap.deref curr_top
      let r := compare_exchange_strong s.top_ curr_top n.next_
      let s := { s with top_ := r.2.1 }
      if r.1 then
        let popped ← s.heap.deref curr_top
        let element := popped.element_
        let s ← PushGarbage gfuel spurious curr_top s
        some (s, some element)
      else PopLoop gfuel spurious fuel r.2.2 s

/-- Method `Pop(element)`. -/
def Pop (fuel spurious : Nat) (s : LockFreeStack T) : Option (LockFreeStack T × Option T) :=
  PopLoop fuel spurious fuel s.top_ s

end LockFreeStack

/-- A call on the stack, with the number of spurious failures of the weak
exchange inside it. -/
inductive StackOp (T : Type) where
  | push (v : T) (spurious : Nat)
  | pop (spurious : Nat)

/-- The number of spurious failures inside a call. -/
def StackOp.spurious {T : Type} : StackOp T → Nat
  | StackOp.push _ k => k
  | StackOp.pop k => k

/-- A sequential history on the stack: the final state and the results of the
`Pop` calls in call order. -/
def runStack {T : Type} (fuel : Nat) :
    LockFreeStack T → List (StackOp T) → Option (LockFreeStack T × List (Option T))
  | s, [] => some (s, [])
  | s, StackOp.push v k :: ops => do
    let s ← s.Push fuel k v
    runStack fuel s ops
  | s, StackOp.pop k :: ops => do
    let r ← s.Pop fuel k
    let rest ← runStack fuel r.1 ops
    some (rest.1, r.2 :: rest.2)

/-- The list stack of the specification: the stacked values (top first) after
a history, and what its `pop` calls return. -/
def specStack {T : Type} : List T → List (StackOp T) → List T × List (Option T)
  | s, [] => (s, [])
  | s, StackOp.push v _ :: ops => specStack (v :: s) ops
  | s, StackOp.pop _ :: ops =>
    match s with
    | [] => ((specStack [] ops).1, none :: (specStack [] ops).2)
    | v :: s => ((specStack s ops).1, some v :: (specStack s ops).2)

/-- Representation invariant of the stack between calls: `live` are the nodes
from `top_`, `garb` the nodes from `garbage_top_`, all distinct. -/
structure SInv {T : Type} (s : LockFreeStack T) (live garb : List (Nat × T)) : Prop where
  chain : Chain s.heap.cells s.top_ live none
  gchain : Chain s.heap.cells s.garbage_top_ garb none
  nodup : ((live ++ garb).map Prod.fst).Nodup
  unused : ∀ a, s.heap.fresh ≤ a → s.heap.cells a = none

/-! ## Striped hash set

The stripe locks are free between the calls of a sequential history and every
call releases what it acquired, so taking a lock is modelled by the index
computation that selects it.  The element count is bounded by the number of
list nodes in memory and is kept as a natural number.

The code computes the load factor and compares it with `max_load_factor_` in
`double`.  Here the threshold is a rational, which covers the value of every
finite `double`, and the quotient and the comparison are exact.  The `double`
test (`ResizeDueDouble`, for any rounding to nearest `fl`) is the exact one
whenever `max_load_factor_` is `k / 2 ^ j` with `k * buckets_.size() < 2 ^ 53`
and `j <= 1000` (`ResizeDueDouble_eq`): the threshold and the bucket count are
then exact doubles, an element count below `2 ^ 53` is exact as well and its
quotient lies further from the threshold than half a unit in the last place,
and a larger element count gives a quotient above `k` either way.  For other
thresholds the rounded quotient can reach the threshold where the exact one
stays below it.  With an empty bucket array the `double` quotient is not a
number or infinite; no public call gets as far as the test then.

The constructor is taken to return: a constructor that throws while building
`locks_` or `buckets_` leaves no object and no history. -/

/-- The value of `max_size()` of the bucket array
`std::vector<std::forward_list<T>>`: `PTRDIFF_MAX / sizeof(std::forward_list<T>)`,
a list head being one pointer of 8 bytes.  A vector of more elements cannot be
created: its constructor throws `std::length_error`. -/
def VECTOR_MAX_SIZE : Nat := (2 ^ 63 - 1) / 8

/-- State of a `StripedHashSet<T>`: the constructor parameters, the bucket
array and the atomic element count. -/
structure StripedHashSet (T : Type) where
  concurrency_level_ : Nat
  growth_factor_ : Nat
  max_load_factor_ : ℚ
  buckets_ : List (List T)
  num_elements_ : Nat
deriving DecidableEq

namespace StripedHashSet

variable {T : Type} [DecidableEq T]

/-- Constructor `StripedHashSet(concurrency_level, growth_factor, load_factor)`:
the state of the object when the constructor returns. -/
def new (concurrency_level growth_factor : Nat) (load_factor : ℚ) : StripedHashSet T :=
  { concurrency_level_ := concurrency_level,
    growth_factor_ := growth_factor,
    max_load_factor_ := load_factor,
    buckets_ := List.replicate ((concurrency_level * growth_factor) % SIZE_T_RANGE) [],
    num_elements_ := 0 }

/-- Method `GetBucketIndex(element_hash, num_buckets)`: `element_hash % num_buckets`,
undefined for `num_buckets = 0`. -/
def GetBucketIndex (element_hash num_buckets : Nat) : Option Nat :=
  if num_buckets = 0 then none else some (element_hash % num_buckets)

/-- Method `GetStripeIndex(element_hash)`: `element_hash % concurrency_level_`. -/
def GetStripeIndex (s : StripedHashSet T) (element_hash : Nat) : Option Nat :=
  if s.concurrency_level_ = 0 then none else some (element_hash % s.concurrency_level_)

/-- Method `ContainsInBucket(bucket_index, element)`: `std::find` over the chain. -/
def ContainsInBucket (s : StripedHashSet T) (bucket_index : Nat) (element : T) : Option Bool :=
  (s.buckets_[bucket_index]?).map (fun bucket => decide (element ∈ bucket))

/-- Statement `buckets[bucket_index].push_front(element)`. -/
def push_front (buckets : List (List T)) (bucket_index : Nat) (element : T) :
    Option (List (List T)) :=
  (buckets[bucket_index]?).map (fun bucket => buckets.set bucket_index (element :: bucket))

/-- Method `GetLoadFactor()`: `(double)num_elements_ / buckets_.size()`, as the
exact quotient. -/
def GetLoadFactor (s : StripedHashSet T) : ℚ :=
  (s.num_elements_ : ℚ) / (s.buckets_.length : ℚ)

/-- Method `NeedToResize()`: `GetLoadFactor() >= max_load_factor_`, on the exact
quotient. -/
def NeedToResize (s : StripedHashSet T) : Bool :=
  decide (s.max_load_factor_ ≤ s.GetLoadFactor)

/-- The test `NeedToResize()` as `Insert` evaluates it for a new element:
with the element counted, against the current bucket array. -/
def ResizeDue (s : StripedHashSet T) : Bool :=
  ({ s with num_elements_ := s.num_elements_ + 1 } : StripedHashSet T).NeedToResize

/-- What the load-factor test uses of `fl`, the rounding of a real number to
the nearest `double` (IEEE 754 binary64): it is monotone, it keeps the numbers
`k * 2 ^ i / 2 ^ j` with `k <= 2 ^ 53`, which are doubles, and in the normal
range it raises a number by at most half a unit in the last place. -/
structure IsRounding (fl : ℚ → ℚ) : Prop where
  mono : ∀ x y : ℚ, 0 ≤ x → x ≤ y → y ≤ 2 ^ 1000 → fl x ≤ fl y
  exact : ∀ k i j : Nat, k ≤ 2 ^ 53 → i ≤ 900 → j ≤ 1000 →
    fl ((k : ℚ) * 2 ^ i / 2 ^ j) = (k : ℚ) * 2 ^ i / 2 ^ j
  err : ∀ q : ℚ, 1 / 2 ^ 1000 ≤ q → q ≤ 2 ^ 1000 → fl q ≤ q + q / 2 ^ 53

/-- Method `Size()`. -/
def Size (s : StripedHashSet T) : Nat := s.num_elements_

variable (hasher_ : T → Nat)

/-- Body of the inner loop of `Resize`:
`new_buckets[GetBucketIndex(hash, new_buckets_size)].push_front(element)`. -/
def RehashElement (new_buckets_size : Nat) (new_buckets : List (List T)) (element : T) :
    Option (List (List T)) := do
  let hash := hasher_ element
  let i ← GetBucketIndex hash new_buckets_size
  push_front new_buckets i element

/-- The rehashing loops of `Resize`: every element of every old bucket is
pushed to the front of its bucket in `new_buckets`. -/
def Rehash (new_buckets_size : Nat) (buckets new_buckets : List (List T)) :
    Option (List (List T)) :=
  buckets.foldlM (fun nb bucket => bucket.foldlM (RehashElement hasher_ new_buckets_size) nb)
    new_buckets

/-- Method `Resize()`.  Taking `locks_[0]` is undefined when there is no
stripe; `std::vector<std::forward_list<T>> new_buckets(new_buckets_size)`
throws `std::length_error` when `new_buckets_size` exceeds `max_size()`, and
the exception leaves `Resize` and the `Insert` that called it. -/
def Resize (s : StripedHashSet T) : Option (StripedHashSet T) :=
  if s.concurrency_level_ = 0 then none
  else if !s.NeedToResize then some s
  else do
    let new_buckets_size := (s.buckets_.length * s.growth_factor_) % SIZE_T_RANGE
    if VECTOR_MAX_SIZE < new_buckets_size then none
    else
      let new_buckets ← Rehash hasher_ new_buckets_size s.buckets_
        (List.replicate new_buckets_size [])
      some { s with buckets_ := new_buckets }

/-- Method `Insert(element)`. -/
def Insert (element : T) (s : StripedHashSet T) : Option (StripedHashSet T × Bool) := do
  let hash := hasher_ element
  let _ ← s.GetStripeIndex hash
  let bucket_index ← GetBucketIndex hash s.buckets_.length
  let found ← s.ContainsInBucket bucket_index element
  if found then some (s, false)
  else
    let buckets ← push_front s.buckets_ bucket_index element
    let s := { s with buckets_ := buckets, num_elements_ := s.num_elements_ + 1 }
    if s.NeedToResize then
      let s ← s.Resize hasher_
      some (s, true)
    else some (s, true)

/-- Method `Remove(element)`. -/
def Remove (element : T) (s : StripedHashSet T) : Option (StripedHashSet T × Bool) := do
  let hash := hasher_ element
  let _ ← s.GetStripeIndex hash
  let bucket_index ← GetBucketIndex hash s.buckets_.length
  let found ← s.ContainsInBucket bucket_index element
  if !found then some (s, false)
  else
    let bucket ← s.buckets_[bucket_index]?
    let buckets := s.buckets_.set bucket_index (bucket.filter (fun y => decide (y ≠ element)))
    some ({ s with buckets_ := buckets, num_elements_ := s.num_elements_ - 1 }, true)

/-- Method `Contains(element)`. -/
def Contains (element : T) (s : StripedHashSet T) : Option Bool := do
  let hash := hasher_ element
  let _ ← s.GetStripeIndex hash
  let bucket_index ← GetBucketIndex hash s.buckets_.length
  s.ContainsInBucket bucket_index element

/-- The states a sequential history can reach from a constructor call. -/
inductive Reachable : StripedHashSet T → Prop where
  | new (concurrency_level growth_factor : Nat) (load_factor : ℚ) :
      Reachable (StripedHashSet.new concurrency_level growth_factor load_factor)
  | insert {s s2 : StripedHashSet T} {r : Bool} (x : T) :
      Reachable s → Insert hasher_ x s = some (s2, r) → Reachable s2
  | remove {s s2 : StripedHashSet T} {r : Bool} (x : T) :
      Reachable s → Remove hasher_ x s = some (s2, r) → Reachable s2

/-- Every element of a bucket array sits in the bucket its hash selects. -/
def Placed (buckets : List (List T)) : Prop :=
  ∀ i bucket, buckets[i]? = some bucket → ∀ x ∈ bucket, hasher_ x % buckets.length = i

/-- Representation invariant of the hash set between calls. -/
structure HInv (s : StripedHashSet T) : Prop where
  placed : Placed hasher_ s.buckets_
  nodup : s.buckets_.flatten.Nodup
  count : s.num_elements_ = s.buckets_.flatten.length
  stripes : s.concurrency_level_ = 0 → s.buckets_ = []

end StripedHashSet

/-- A call on the hash set. -/
inductive SetOp (T : Type) where
  | insert (x : T)
  | remove (x : T)
  | contains (x : T)

/-- A sequential history on the hash set: the final state and the results of
the calls in call order. -/
def runSet {T : Type} [DecidableEq T] (hasher_ : T → Nat) :
    StripedHashSet T → List (SetOp T) → Option (StripedHashSet T × List Bool)
  | s, [] => some (s, [])
  | s, SetOp.insert x :: ops => do
    let r ← s.Insert hasher_ x
    let rest ← runSet hasher_ r.1 ops
    some (rest.1, r.2 :: rest.2)
  | s, SetOp.remove x :: ops => do
    let r ← s.Remove hasher_ x
    let rest ← runSet hasher_ r.1 ops
    some (rest.1, r.2 :: rest.2)
  | s, SetOp.contains x :: ops => do
    let r ← s.Contains hasher_ x
    let rest ← runSet hasher_ s ops
    some (rest.1, r :: rest.2)

/-- The set of the specification, kept as a list of its members: what the
calls of a history return. -/
def specSet {T : Type} [DecidableEq T] : List T → List (SetOp T) → List Bool
  | _, [] => []
  | S, SetOp.insert x :: ops =>
    if x ∈ S then false :: specSet S ops else true :: specSet (x :: S) ops
  | S, SetOp.remove x :: ops =>
    if x ∈ S then true :: specSet (S.filter (fun y => decide (y ≠ x))) ops
    else false :: specSet S ops
  | S, SetOp.contains x :: ops => decide (x ∈ S) :: specSet S ops

/-- Example state: 4 stripes, growth factor 3, 12 buckets, after `insert("a")`
with strings hashed by their length. -/
def exampleSetA : StripedHashSet String :=
  { concurrency_level_ := 4, growth_factor_ := 3, max_load_factor_ := 3 / 4,
    buckets_ := [[], ["a"], [], [], [], [], [], [], [], [], [], []],
    num_elements_ := 1 }

/-- Example state: 2 stripes, growth factor 3, threshold 3/4, 6 buckets, after
inserting 1, 2, 3, 4 hashed by their value. -/
def exampleSet4 : StripedHashSet Nat :=
  { concurrency_level_ := 2, growth_factor_ := 3, max_load_factor_ := 3 / 4,
    buckets_ := [[], [1], [2], [3], [4], []],
    num_elements_ := 4 }

/-- Example state: `exampleSet4` after inserting 5, which resized it to 18 buckets. -/
def exampleSet5 : StripedHashSet Nat :=
  { concurrency_level_ := 2, growth_factor_ := 3, max_load_factor_ := 3 / 4,
    buckets_ := [[], [1], [2], [3], [4], [5], [], [], [], [], [], [], [], [], [], [], [], []],
    num_elements_ := 5 }

/-- The values passed to `Push` in a history, in call order. -/
def pushed {T : Type} : List (StackOp T) → List T
  | [] => []
  | StackOp.push v _ :: ops => v :: pushed ops
  | StackOp.pop _ :: ops => pushed ops

namespace StripedHashSet

variable {T : Type} [DecidableEq T] (hasher_ : T → Nat)

/-- The states reachable by a sequential history in which no bucket-count
product left the range of `size_t`: the constructor's
`concurrency_level * growth_factor` and, for every `Insert` that resized,
`buckets_.size() * growth_factor_`. -/
inductive ReachableExact : StripedHashSet T → Prop where
  | new (concurrency_level growth_factor : Nat) (load_factor : ℚ) :
      1 ≤ concurrency_level → 1 ≤ growth_factor →
      concurrency_level * growth_factor < SIZE_T_RANGE →
      ReachableExact (StripedHashSet.new concurrency_level growth_factor load_factor)
  | insert {s s2 : StripedHashSet T} {r : Bool} (x : T) :
      ReachableExact s →
      (r = true → s.ResizeDue = true → s.buckets_.length * s.growth_factor_ < SIZE_T_RANGE) →
      Insert hasher_ x s = some (s2, r) → ReachableExact s2
  | remove {s s2 : StripedHashSet T} {r : Bool} (x : T) :
      ReachableExact s → Remove hasher_ x s = some (s2, r) → ReachableExact s2

end StripedHashSet

/-- A history keeps the bucket count within `size_t`: before every `Insert`
the product `buckets_.size() * growth_factor_` is below `2 ^ 64`. -/
def exactHistory {T : Type} [DecidableEq T] (hasher_ : T → Nat) :
    StripedHashSet T → List (SetOp T) → Bool
  | _, [] => true
  | s, SetOp.insert x :: ops =>
    decide (s.buckets_.length * s.growth_factor_ < SIZE_T_RANGE) &&
      (match s.Insert hasher_ x with
       | none => true
       | some r => exactHistory hasher_ r.1 ops)
  | s, SetOp.remove x :: ops =>
    (match s.Remove hasher_ x with
     | none => true
     | some r => exactHistory hasher_ r.1 ops)
  | s, SetOp.contains _ :: ops => exactHistory hasher_ s ops

/-! ## Readers-writer lock

Every method of `ReadWriteMutex` runs under the internal `std::mutex`, so the
state changes in atomic steps: `lock()` is the step that counts the caller in
`writers_` and, once its wait loop falls through, the step that sets
`writing_`; `lock_shared()` is one step, taken once its wait loop falls
through; `unlock()` and `unlock_shared()` are one step each, taken by a thread
that holds the lock in that mode.  The counters are `size_t`: increments and
decrements wrap modulo `SIZE_T_RANGE`. -/

/-- State of a `ReadWriteMutex`. -/
structure ReadWriteMutex where
  readers_ : Nat
  writers_ : Nat
  writing_ : Bool
deriving DecidableEq

/-- The atomic steps of the methods of `ReadWriteMutex`. -/
inductive RWStep where
  | lock_enter
  | lock_acquire
  | lock_shared
  | unlock
  | unlock_shared
deriving DecidableEq

namespace ReadWriteMutex

/-- Constructor `ReadWriteMutex()`. -/
def new : ReadWriteMutex := { readers_ := 0, writers_ := 0, writing_ := false }

/-- A `size_t` increment `++n`. -/
def succ (n : Nat) : Nat := (n + 1) % SIZE_T_RANGE

/-- A `size_t` decrement `--n`. -/
def pred (n : Nat) : Nat := if n = 0 then SIZE_T_RANGE - 1 else n - 1

/-- One atomic step; `none` when the step cannot be taken in this state.
`lock_acquire` is taken by a thread counted in `writers_` whose loop
`while (writing_ || readers_)` falls through, `lock_shared` when the loop
`while (writing_ || writers_)` falls through, `unlock` by the thread that set
`writing_`, `unlock_shared` by a thread counted in `readers_`. -/
def step (m : ReadWriteMutex) : RWStep → Option ReadWriteMutex
  | RWStep.lock_enter => some { m with writers_ := succ m.writers_ }
  | RWStep.lock_acquire =>
    if m.writing_ || decide (m.readers_ ≠ 0) then none
    else if m.writers_ = 0 then none
    else some { m with writing_ := true }
  | RWStep.lock_shared =>
    if m.writing_ || decide (m.writers_ ≠ 0) then none
    else some { m with readers_ := succ m.readers_ }
  | RWStep.unlock =>
    if m.writing_ then some { m with writing_ := false, writers_ := pred m.writers_ }
    else none
  | RWStep.unlock_shared =>
    if m.readers_ = 0 then none
    else some { m with readers_ := pred m.readers_ }

/-- A sequence of steps from a state. -/
def run : ReadWriteMutex → List RWStep → Option ReadWriteMutex
  | m, [] => some m
  | m, e :: es => (m.step e).bind (fun m2 => run m2 es)

end ReadWriteMutex

/-! # Theorems -/

/-! ## Queue: chains of nodes on the free store -/

section QueueChains
variable {T : Type}

theorem Chain_nil_iff {cells : Nat → Option (Node T)} (p q : Option Nat) :
    Chain cells p [] q ↔ p = q := Iff.rfl

theorem Chain_cons_iff {cells : Nat → Option (Node T)} (x : Nat × T) (l : List (Nat × T))
    (p q : Option Nat) :
    Chain cells p (x :: l) q ↔
      p = some x.1 ∧ ∃ nx, cells x.1 = some ⟨x.2, nx⟩ ∧ Chain cells nx l q := Iff.rfl

theorem Chain_append {cells : Nat → Option (Node T)} (l1 l2 : List (Nat × T)) :
    ∀ (p q : Option Nat),
      Chain cells p (l1 ++ l2) q ↔ ∃ m, Chain cells p l1 m ∧ Chain cells m l2 q := by
  induction l1 with
  | nil => intro p q; simp [Chain_nil_iff]
  | cons x l1 ih =>
    intro p q
    rw [List.cons_append, Chain_cons_iff]
    constructor
    · rintro ⟨hp, nx, hc, h⟩
      obtain ⟨m, h1, h2⟩ := (ih nx q).1 h
      exact ⟨m, ⟨hp, nx, hc, h1⟩, h2⟩
    · rintro ⟨m, ⟨hp, nx, hc, h1⟩, h2⟩
      exact ⟨hp, nx, hc, (ih nx q).2 ⟨m, h1, h2⟩⟩

theorem Chain_frame {cells cells2 : Nat → Option (Node T)} :
    ∀ (l : List (Nat × T)) (p q : Option Nat),
      (∀ x ∈ l, cells2 x.1 = cells x.1) → Chain cells p l q → Chain cells2 p l q
  | [], _, _, _, h => h
  | x :: l, p, q, hf, h => by
    obtain ⟨hp, nx, hc, hr⟩ := h
    refine ⟨hp, nx, ?_, Chain_frame l nx q (fun y hy => hf y (List.mem_cons_of_mem _ hy)) hr⟩
    rw [hf x (List.mem_cons_self _ _)]; exact hc

theorem Chain_live {cells : Nat → Option (Node T)} :
    ∀ (l : List (Nat × T)) (p q : Option Nat), Chain cells p l q →
      ∀ x ∈ l, ∃ nx, cells x.1 = some ⟨x.2, nx⟩
  | [], _, _, _, _, hx => by simp at hx
  | y :: l, p, q, h, x, hx => by
    obtain ⟨_, nx, hc, hr⟩ := h
    rcases List.mem_cons.1 hx with rfl | hx
    · exact ⟨nx, hc⟩
    · exact Chain_live l nx q hr x hx

end QueueChains

/-! ## Queue: `Enqueue` keeps the invariant -/

section QueueEnqueue
variable {T : Type}

theorem QInv_last_eq {g l : List (Nat × T)} {hd : Nat × T} :
    (g ++ hd :: l).getLast? = some (l.getLast?.getD hd) := by
  rw [List.getLast?_append, List.getLast?_cons]; rfl

theorem Chain_unsnoc {cells : Nat → Option (Node T)} {L : List (Nat × T)} {x : Nat × T}
    {p : Option Nat} (h : Chain cells p (L ++ [x]) none) :
    Chain cells p L (some x.1) ∧ cells x.1 = some ⟨x.2, none⟩ := by
  obtain ⟨m, h1, h2⟩ := (Chain_append L [x] p none).1 h
  obtain ⟨hm, nx, hc, hn⟩ := h2
  have hnx : nx = none := hn
  subst hnx
  subst hm
  exact ⟨h1, hc⟩

theorem QInv_lt_fresh {q : LockFreeQueue T} {g l : List (Nat × T)} {hd : Nat × T}
    (inv : QInv q g hd l) {x : Nat × T} (hx : x ∈ g ++ hd :: l) : x.1 < q.heap.fresh := by
  obtain ⟨nx, hc⟩ := Chain_live _ _ _ inv.chain x hx
  by_contra hlt
  rw [inv.unused x.1 (by omega)] at hc
  cases hc

theorem Enqueue_spec {q : LockFreeQueue T} {g l : List (Nat × T)} {hd : Nat × T}
    (inv : QInv q g hd l) (v : T) (fuel : Nat) (hfuel : 1 ≤ fuel) :
    ∃ q2, q.Enqueue fuel v = some q2 ∧ QInv q2 g hd (l ++ [(q.heap.fresh, v)]) ∧
      q2.operations_counter_ = q.incr.decr.operations_counter_ := by
  obtain ⟨fuel, rfl⟩ : ∃ k, fuel = k + 1 := ⟨fuel - 1, by omega⟩
  obtain ⟨L, hL⟩ := List.getLast?_eq_some_iff.1 (@QInv_last_eq T g l hd)
  have hch := inv.chain
  rw [hL] at hch
  obtain ⟨hinit, hlast⟩ := Chain_unsnoc hch
  have hnd := inv.nodup
  rw [hL] at hnd
  set t := l.getLast?.getD hd with ht
  have htf : t.1 ≠ q.heap.fresh := by
    intro h
    have := inv.unused t.1 (by omega)
    rw [this] at hlast; cases hlast
  have hE : q.Enqueue (fuel + 1) v = some
      { heap := { cells := fun b => if b = t.1 then some ⟨t.2, some q.heap.fresh⟩
                    else if b = q.heap.fresh then some ⟨v, none⟩ else q.heap.cells b,
                  fresh := q.heap.fresh + 1 },
        head_ := q.head_, tail_ := some q.heap.fresh, garbage_head_ := q.garbage_head_,
        operations_counter_ := q.incr.decr.operations_counter_ } := by
    simp [LockFreeQueue.Enqueue, LockFreeQueue.EnqueueLoop, LockFreeQueue.incr,
      LockFreeQueue.decr, Heap.alloc,
      Heap.deref, inv.tail, ← ht, htf, hlast, compare_exchange_strong, Heap.storeNext]
  refine ⟨_, hE, ?_, rfl⟩
  have hlt : ∀ x ∈ L ++ [t], x.1 < q.heap.fresh := fun x hx => QInv_lt_fresh inv (hL ▸ hx)
  have hne : ∀ x ∈ L, x.1 ≠ t.1 := by
    intro x hx hxt
    rw [List.map_append, List.nodup_append] at hnd
    exact hnd.2.2 (List.mem_map_of_mem _ hx) (by simp [hxt])
  have hassoc : g ++ hd :: (l ++ [(q.heap.fresh, v)]) = L ++ [t] ++ [(q.heap.fresh, v)] := by
    rw [← hL]; simp
  constructor
  · show Chain _ q.garbage_head_ _ none
    rw [hassoc, List.append_assoc, Chain_append]
    refine ⟨some t.1, Chain_frame L _ _ ?_ hinit, ?_⟩
    · intro x hx
      have h1 := hne x hx
      have h2 : x.1 ≠ q.heap.fresh := Nat.ne_of_lt (hlt x (List.mem_append_left _ hx))
      simp [h1, h2]
    · refine ⟨rfl, some q.heap.fresh, by simp, rfl, none, ?_, rfl⟩
      simp [Ne.symm htf]
  · rw [hassoc, List.map_append, List.nodup_append]
    refine ⟨hnd, by simp, ?_⟩
    intro a ha hb
    simp only [List.map_cons, List.map_nil, List.mem_singleton] at hb
    obtain ⟨x, hx, rfl⟩ := List.mem_map.1 ha
    exact absurd hb (Nat.ne_of_lt (hlt x hx))
  · exact inv.head
  · simp
  · intro a ha
    have h1 : a ≠ t.1 := by
      have := hlt t (by simp)
      intro h; subst h; simp at ha; omega
    have h2 : a ≠ q.heap.fresh := by intro h; subst h; simp at ha
    simp only [h1, h2, if_false]
    exact inv.unused a (by simp at ha; omega)

end QueueEnqueue

/-! ## Queue: `DeleteGarbage` and `Dequeue` keep the invariant -/

section QueueDequeue
variable {T : Type}

theorem QInv_congr {q q2 : LockFreeQueue T} {g l : List (Nat × T)} {hd : Nat × T}
    (inv : QInv q g hd l) (h1 : q2.heap = q.heap) (h2 : q2.head_ = q.head_)
    (h3 : q2.tail_ = q.tail_) (h4 : q2.garbage_head_ = q.garbage_head_) : QInv q2 g hd l := by
  refine ⟨?_, inv.nodup, ?_, ?_, ?_⟩
  · rw [h1, h4]; exact inv.chain
  · rw [h2]; exact inv.head
  · rw [h3]; exact inv.tail
  · rw [h1]; exact inv.unused

theorem QInv_incr {q : LockFreeQueue T} {g l : List (Nat × T)} {hd : Nat × T}
    (inv : QInv q g hd l) : QInv q.incr g hd l :=
  QInv_congr inv rfl rfl rfl rfl

theorem QInv_decr {q : LockFreeQueue T} {g l : List (Nat × T)} {hd : Nat × T}
    (inv : QInv q g hd l) : QInv q.decr g hd l :=
  QInv_congr inv rfl rfl rfl rfl

theorem DeleteGarbage_spec (hd : Nat × T) (l : List (Nat × T)) :
    ∀ (g : List (Nat × T)) (q : LockFreeQueue T) (fuel : Nat), g.length + 1 ≤ fuel →
      Chain q.heap.cells q.garbage_head_ (g ++ hd :: l) none →
      ((g ++ hd :: l).map Prod.fst).Nodup →
      ∃ q2, LockFreeQueue.DeleteGarbage fuel (some hd.1) q = some q2 ∧
        q2.garbage_head_ = some hd.1 ∧ q2.head_ = q.head_ ∧ q2.tail_ = q.tail_ ∧
        q2.operations_counter_ = q.operations_counter_ ∧ q2.heap.fresh = q.heap.fresh ∧
        ∀ a, q2.heap.cells a = if a ∈ g.map Prod.fst then none else q.heap.cells a := by
  intro g
  induction g with
  | nil =>
    intro q fuel hfuel hch _
    obtain ⟨fuel, rfl⟩ : ∃ k, fuel = k + 1 := ⟨fuel - 1, by simp at hfuel; omega⟩
    have hgh : q.garbage_head_ = some hd.1 := hch.1
    exact ⟨q, by simp [LockFreeQueue.DeleteGarbage, hgh], hgh, rfl, rfl, rfl, rfl, by simp⟩
  | cons x g ih =>
    intro q fuel hfuel hch hnd
    obtain ⟨fuel, rfl⟩ : ∃ k, fuel = k + 1 := ⟨fuel - 1, by simp at hfuel; omega⟩
    obtain ⟨hgh, nx, hc, hrest⟩ := hch
    simp only [List.cons_append, List.map_cons, List.nodup_cons] at hnd
    have hxhd : x.1 ≠ hd.1 := by
      intro h
      exact hnd.1 (List.mem_map.2 ⟨hd, by simp, h.symm⟩)
    have hrest2 : Chain (fun b => if b = x.1 then none else q.heap.cells b) nx
        (g ++ hd :: l) none := by
      refine Chain_frame _ _ _ ?_ hrest
      intro y hy
      have : y.1 ≠ x.1 := fun h => hnd.1 (List.mem_map.2 ⟨y, hy, h⟩)
      simp [this]
    obtain ⟨q2, h1, h2, h3, h4, h5, h6, h7⟩ :=
      ih { q with garbage_head_ := nx,
                  heap := { q.heap with cells := fun b => if b = x.1 then none else q.heap.cells b } }
        fuel (by simp at hfuel; omega) hrest2 hnd.2
    refine ⟨q2, ?_, h2, h3, h4, h5, h6, ?_⟩
    · simp [LockFreeQueue.DeleteGarbage, hgh, hxhd, Heap.deref, hc, Heap.delete]
      exact h1
    · intro a
      rw [h7 a]
      by_cases ha : a = x.1
      · simp [ha]
      · by_cases hm : a ∈ List.map Prod.fst g
        · simp [hm]
        · have hm2 : a ∉ List.map Prod.fst (x :: g) := by
            simpa [ha] using hm
          rw [if_neg hm, if_neg hm2]
          simp [ha]

theorem Dequeue_spec_nil {q : LockFreeQueue T} {g : List (Nat × T)} {hd : Nat × T}
    (inv : QInv q g hd []) (fuel : Nat) (hfuel : 1 ≤ fuel) :
    q.Dequeue fuel = some (q.incr, none) ∧ QInv q.incr g hd [] := by
  obtain ⟨fuel, rfl⟩ : ∃ k, fuel = k + 1 := ⟨fuel - 1, by omega⟩
  have hch := inv.chain
  obtain ⟨_, hlast⟩ := Chain_unsnoc hch
  have htail : q.tail_ = some hd.1 := inv.tail
  constructor
  · simp [LockFreeQueue.Dequeue, LockFreeQueue.DequeueLoop, LockFreeQueue.incr, inv.head, htail,
      Heap.deref, hlast]
  · exact ⟨inv.chain, inv.nodup, inv.head, inv.tail, inv.unused⟩

theorem Dequeue_spec_cons {q : LockFreeQueue T} {g l : List (Nat × T)} {hd x : Nat × T}
    (inv : QInv q g hd (x :: l)) (fuel : Nat) (hfuel : g.length + 2 ≤ fuel) :
    ∃ q2 g2, q.Dequeue fuel = some (q2, some x.2) ∧ QInv q2 g2 x l ∧
      g2.length ≤ g.length + 1 := by
  obtain ⟨k, rfl⟩ : ∃ k, fuel = k + 1 := ⟨fuel - 1, by omega⟩
  have hch := inv.chain
  have hch2 : Chain q.heap.cells q.garbage_head_ ((g ++ [hd]) ++ x :: l) none := by
    simpa using hch
  have hnd2 : (((g ++ [hd]) ++ x :: l).map Prod.fst).Nodup := by simpa using inv.nodup
  obtain ⟨m, hg, hm, nx, hhd, hx, nx2, hxc, hl⟩ := (Chain_append g (hd :: x :: l) _ _).1 hch
  have hnd := inv.nodup
  have hne : hd.1 ≠ ((x :: l).getLast?.getD hd).1 := by
    have hmem : (x :: l).getLast?.getD hd ∈ x :: l := by
      rw [List.getLast?_cons]; simp only [Option.getD_some]
      cases hl2 : l.getLast? with
      | none => simp
      | some y => simp [List.mem_of_mem_getLast? hl2]
    rw [List.map_append, List.nodup_append] at hnd
    have h2 := hnd.2.1
    simp only [List.map_cons, List.nodup_cons] at h2
    intro h
    exact h2.1 (h ▸ List.mem_map_of_mem Prod.fst hmem)
  have hne2 : ¬ (some hd.1 = some ((x :: l).getLast?.getD hd).1) := by
    intro h; exact hne (Option.some.inj h)
  subst hx
  obtain ⟨m2, hgar, hlive⟩ := (Chain_append (g ++ [hd]) (x :: l) _ _).1 hch2
  have hm2 : m2 = some x.1 := hlive.1
  subst hm2
  by_cases hc1 : (q.operations_counter_ + 1) % SIZE_T_RANGE = 1
  · obtain ⟨q2, h1, h2, h3, h4, h5, h6, h7⟩ := DeleteGarbage_spec x l (g ++ [hd])
      { q.incr with head_ := some x.1 } (k + 1) (by simp; omega) hch2 hnd2
    have htl : q.tail_ = some (l.getLast?.getD x).1 := by
      have := inv.tail
      rw [List.getLast?_cons] at this
      simpa using this
    have hinv2 : QInv q2 [] x l := by
      have hframe : Chain q2.heap.cells (some x.1) (x :: l) none := by
        refine Chain_frame _ _ _ ?_ hlive
        intro y hy
        rw [h7 y.1]
        have : y.1 ∉ (g ++ [hd]).map Prod.fst := by
          rw [List.map_append, List.nodup_append] at hnd2
          intro h
          exact hnd2.2.2 h (List.mem_map_of_mem Prod.fst hy)
        rw [if_neg this]
        rfl
      refine ⟨?_, ?_, ?_, ?_, ?_⟩
      · rw [h2]; exact hframe
      · rw [List.map_append, List.nodup_append] at hnd2
        simpa using hnd2.2.1
      · rw [h3]
      · rw [h4]; exact htl
      · intro a ha
        rw [h7 a]
        have h6b : q2.heap.fresh = q.heap.fresh := h6
        rw [h6b] at ha
        have := inv.unused a ha
        by_cases hm : a ∈ (g ++ [hd]).map Prod.fst
        · rw [if_pos hm]
        · rw [if_neg hm]; exact this
    refine ⟨q2.decr, [], ?_, QInv_decr hinv2, by simp⟩
    simp only [LockFreeQueue.incr, inv.tail, hc1] at h1
    simp [LockFreeQueue.Dequeue, LockFreeQueue.DequeueLoop, LockFreeQueue.incr, inv.head,
      inv.tail, hne2, Heap.deref, hhd, compare_exchange_strong, hxc, hc1, h1]
  · have htl : q.tail_ = some (l.getLast?.getD x).1 := by
      have := inv.tail
      rw [List.getLast?_cons] at this
      simpa using this
    have hinv2 : QInv ({ q with head_ := some x.1 } : LockFreeQueue T) (g ++ [hd]) x l :=
      ⟨hch2, hnd2, rfl, htl, inv.unused⟩
    refine ⟨({ q.incr with head_ := some x.1 } : LockFreeQueue T).decr, g ++ [hd], ?_,
      QInv_congr hinv2 rfl rfl rfl rfl, by simp⟩
    simp [LockFreeQueue.Dequeue, LockFreeQueue.DequeueLoop, LockFreeQueue.incr, inv.head,
      inv.tail, hne2, Heap.deref, hhd, compare_exchange_strong, hxc, hc1]

end QueueDequeue

/-! ## Queue: histories refine the list queue -/

section QueueHistories
variable {T : Type}

theorem QInv_new [Inhabited T] : QInv (LockFreeQueue.new : LockFreeQueue T) [] (0, default) [] := by
  refine ⟨?_, by simp, rfl, rfl, ?_⟩
  · exact ⟨rfl, none, by simp [LockFreeQueue.new, Heap.alloc, Heap.empty], rfl⟩
  · intro a ha
    have h0 : a ≠ 0 := by
      intro h; subst h; simp [LockFreeQueue.new, Heap.alloc, Heap.empty] at ha
    simp [LockFreeQueue.new, Heap.alloc, Heap.empty, h0]

theorem runQueue_refines (ops : List (QueueOp T)) :
    ∀ (q : LockFreeQueue T) (g : List (Nat × T)) (hd : Nat × T) (l : List (Nat × T))
      (fuel : Nat), QInv q g hd l → g.length + ops.length + 2 ≤ fuel →
      ∃ q2 g2 hd2 l2, runQueue fuel q ops = some (q2, (specQueue (l.map Prod.snd) ops).2) ∧
        QInv q2 g2 hd2 l2 ∧ l2.map Prod.snd = (specQueue (l.map Prod.snd) ops).1 ∧
        g2.length ≤ g.length + ops.length := by
  induction ops with
  | nil =>
    intro q g hd l fuel inv _
    exact ⟨q, g, hd, l, by simp [runQueue, specQueue], inv, by simp [specQueue], by simp⟩
  | cons op ops ih =>
    intro q g hd l fuel inv hfuel
    simp only [List.length_cons] at hfuel
    cases op with
    | enqueue v =>
      obtain ⟨q1, hq1, inv1, _⟩ := Enqueue_spec inv v fuel (by omega)
      obtain ⟨q2, g2, hd2, l2, hrun, inv2, hl2, hg2⟩ := ih q1 g hd _ fuel inv1 (by omega)
      refine ⟨q2, g2, hd2, l2, ?_, inv2, ?_, by simp only [List.length_cons]; omega⟩
      · simp only [runQueue, hq1, Option.bind_eq_bind, Option.some_bind, specQueue]
        simpa using hrun
      · simpa [specQueue] using hl2
    | dequeue =>
      cases l with
      | nil =>
        obtain ⟨hq1, inv1⟩ := Dequeue_spec_nil inv fuel (by omega)
        obtain ⟨q2, g2, hd2, l2, hrun, inv2, hl2, hg2⟩ := ih q.incr g hd [] fuel inv1 (by omega)
        refine ⟨q2, g2, hd2, l2, ?_, inv2, ?_, by simp only [List.length_cons]; omega⟩
        · simp only [List.map_nil] at hrun
          simp [runQueue, hq1, specQueue, hrun]
        · simpa [specQueue] using hl2
      | cons x l =>
        obtain ⟨q1, g1, hq1, inv1, hg1⟩ := Dequeue_spec_cons inv fuel (by omega)
        obtain ⟨q2, g2, hd2, l2, hrun, inv2, hl2, hg2⟩ := ih q1 g1 x l fuel inv1 (by omega)
        refine ⟨q2, g2, hd2, l2, ?_, inv2, ?_, by simp only [List.length_cons]; omega⟩
        · simp [runQueue, hq1, specQueue, hrun]
        · simpa [specQueue] using hl2

theorem specQueue_prefix (ops : List (QueueOp T)) :
    ∀ s : List T, (specQueue s ops).2.filterMap id <+: s ++ enqueued ops := by
  induction ops with
  | nil => intro s; simp [specQueue]
  | cons op ops ih =>
    intro s
    cases op with
    | enqueue v => simpa [specQueue, enqueued] using ih (s ++ [v])
    | dequeue =>
      cases s with
      | nil => simpa [specQueue, enqueued] using ih []
      | cons v s =>
        simp only [specQueue, enqueued, List.filterMap_cons, id, List.cons_append]
        exact (List.prefix_cons_inj v).2 (ih s)

theorem specQueue_length (ops : List (QueueOp T)) :
    ∀ s : List T, (specQueue s ops).1.length + ((specQueue s ops).2.filterMap id).length =
      s.length + (enqueued ops).length := by
  induction ops with
  | nil => intro s; simp [specQueue, enqueued]
  | cons op ops ih =>
    intro s
    cases op with
    | enqueue v =>
      have := ih (s ++ [v])
      simp only [specQueue, enqueued, List.length_append, List.length_cons, List.length_nil] at this ⊢
      omega
    | dequeue =>
      cases s with
      | nil => simpa [specQueue, enqueued] using ih []
      | cons v s =>
        have := ih s
        simp only [specQueue, enqueued, List.filterMap_cons, id, List.length_cons] at this ⊢
        omega

theorem specQueue_enqueues (vs : List T) (rest : List (QueueOp T)) :
    ∀ s : List T, specQueue s (vs.map QueueOp.enqueue ++ rest) = specQueue (s ++ vs) rest := by
  induction vs with
  | nil => intro s; simp
  | cons v vs ih => intro s; simp [specQueue, ih]

theorem specQueue_drain :
    ∀ s : List T, specQueue s (List.replicate s.length QueueOp.dequeue) = ([], s.map some)
  | [] => rfl
  | v :: s => by
    simp [List.replicate_succ, specQueue, specQueue_drain s]

end QueueHistories

/-- C1 (queue FIFO order). For every sequential history `ops` on a freshly
constructed `LockFreeQueue`, run with enough fuel, every call returns, and
the values returned by the successful `Dequeue` calls, in call order, are a
prefix of the values passed to `Enqueue`, in call order.  In particular,
enqueueing `vs` and then calling `Dequeue` `vs.length` times returns `true`
each time, with the values of `vs` in the same order. -/
theorem C1_queue_fifo {T : Type} [Inhabited T] (fuel : Nat) (ops : List (QueueOp T))
    (vs : List T) (hops : ops.length + 2 ≤ fuel) (hvs : 2 * vs.length + 2 ≤ fuel) :
    (∃ q outs, runQueue fuel LockFreeQueue.new ops = some (q, outs) ∧
      outs.filterMap id <+: enqueued ops) ∧
    (∃ q, runQueue fuel LockFreeQueue.new
        (vs.map QueueOp.enqueue ++ List.replicate vs.length QueueOp.dequeue) =
      some (q, vs.map some)) := by
  constructor
  · obtain ⟨q2, _, _, _, hrun, _, _, _⟩ :=
      runQueue_refines ops LockFreeQueue.new [] (0, default) [] fuel QInv_new
        (by simp only [List.length_nil]; omega)
    refine ⟨q2, _, hrun, ?_⟩
    simpa using specQueue_prefix ops ([] : List T)
  · obtain ⟨q2, _, _, _, hrun, _, _, _⟩ :=
      runQueue_refines (vs.map QueueOp.enqueue ++ List.replicate vs.length QueueOp.dequeue)
        LockFreeQueue.new [] (0, default) [] fuel QInv_new (by simp; omega)
    refine ⟨q2, ?_⟩
    rw [hrun, List.map_nil, specQueue_enqueues, List.nil_append, specQueue_drain]

/-- Witness of C1: enqueue 1, 2, 3, then three dequeues yield 1, 2, 3 and a
fourth finds the queue empty. -/
theorem C1_queue_fifo_witness :
    ([QueueOp.enqueue 1, QueueOp.enqueue 2, QueueOp.enqueue 3, QueueOp.dequeue,
        QueueOp.dequeue, QueueOp.dequeue, QueueOp.dequeue] : List (QueueOp Nat)).length + 2 ≤ 9 ∧
    2 * ([1, 2, 3] : List Nat).length + 2 ≤ 9 ∧
    ((∃ q outs, runQueue 9 LockFreeQueue.new
        [QueueOp.enqueue 1, QueueOp.enqueue 2, QueueOp.enqueue 3, QueueOp.dequeue,
          QueueOp.dequeue, QueueOp.dequeue, QueueOp.dequeue] = some (q, outs) ∧
      outs.filterMap id <+: enqueued
        [QueueOp.enqueue 1, QueueOp.enqueue 2, QueueOp.enqueue 3, QueueOp.dequeue,
          QueueOp.dequeue, QueueOp.dequeue, QueueOp.dequeue]) ∧
    (∃ q, runQueue 9 LockFreeQueue.new
        (([1, 2, 3] : List Nat).map QueueOp.enqueue ++
          List.replicate ([1, 2, 3] : List Nat).length QueueOp.dequeue) =
      some (q, ([1, 2, 3] : List Nat).map some))) ∧
    (runQueue 9 (LockFreeQueue.new : LockFreeQueue Nat)
        [QueueOp.enqueue 1, QueueOp.enqueue 2, QueueOp.enqueue 3, QueueOp.dequeue,
          QueueOp.dequeue, QueueOp.dequeue, QueueOp.dequeue]).map Prod.snd =
      some [some 1, some 2, some 3, none] :=
  ⟨by decide, by decide, C1_queue_fifo 9 _ [1, 2, 3] (by decide) (by decide), by decide⟩

/-- C2 (queue emptiness). After every sequential history `ops` on a freshly
constructed `LockFreeQueue`, a further `Dequeue` returns, and it returns
`false` exactly when the number of earlier `Enqueue` calls equals the number
of earlier successful `Dequeue` calls, `true` otherwise; a `Dequeue` on a
brand-new queue returns `false`. -/
theorem C2_queue_emptiness {T : Type} [Inhabited T] (fuel : Nat) (ops : List (QueueOp T))
    (hfuel : ops.length + 2 ≤ fuel) :
    (∃ q outs q2 r, runQueue fuel LockFreeQueue.new ops = some (q, outs) ∧
      q.Dequeue fuel = some (q2, r) ∧
      (r = none ↔ (enqueued ops).length = (outs.filterMap id).length)) ∧
    (∃ q2, (LockFreeQueue.new : LockFreeQueue T).Dequeue fuel = some (q2, none)) := by
  constructor
  · obtain ⟨q, g, hd, l, hrun, inv, hl, hg⟩ :=
      runQueue_refines ops LockFreeQueue.new [] (0, default) [] fuel QInv_new
        (by simp only [List.length_nil]; omega)
    have hlen := specQueue_length ops ([] : List T)
    simp only [List.map_nil] at hrun hl
    rw [← hl] at hlen
    simp only [List.length_map, List.length_nil, Nat.zero_add] at hlen
    cases l with
    | nil =>
      obtain ⟨hd1, _⟩ := Dequeue_spec_nil inv fuel (by omega)
      refine ⟨q, _, q.incr, none, hrun, hd1, ?_⟩
      simp only [List.length_nil, Nat.zero_add] at hlen
      simp [hlen]
    | cons x l =>
      simp only [List.length_nil, Nat.zero_add] at hg
      obtain ⟨q2, g2, hd1, _, _⟩ := Dequeue_spec_cons inv fuel (by omega)
      refine ⟨q, _, q2, some x.2, hrun, hd1, ?_⟩
      simp only [List.length_cons] at hlen
      constructor
      · intro h; cases h
      · intro h; omega
  · exact ⟨_, (Dequeue_spec_nil (QInv_new (T := T)) fuel (by omega)).1⟩

/-- Witness of C2: after two enqueues and two successful dequeues the next
`Dequeue` returns `false`. -/
theorem C2_queue_emptiness_witness :
    ([QueueOp.enqueue 5, QueueOp.dequeue, QueueOp.enqueue 7, QueueOp.dequeue] :
        List (QueueOp Nat)).length + 2 ≤ 6 ∧
    ((∃ q outs q2 r, runQueue 6 LockFreeQueue.new
        [QueueOp.enqueue 5, QueueOp.dequeue, QueueOp.enqueue 7, QueueOp.dequeue] = some (q, outs) ∧
      q.Dequeue 6 = some (q2, r) ∧
      (r = none ↔ (enqueued
        [QueueOp.enqueue 5, QueueOp.dequeue, QueueOp.enqueue 7, QueueOp.dequeue]).length =
          (outs.filterMap id).length)) ∧
    (∃ q2, (LockFreeQueue.new : LockFreeQueue Nat).Dequeue 6 = some (q2, none))) ∧
    (runQueue 6 (LockFreeQueue.new : LockFreeQueue Nat)
        [QueueOp.enqueue 5, QueueOp.dequeue, QueueOp.enqueue 7, QueueOp.dequeue,
          QueueOp.dequeue]).map Prod.snd = some [some 5, some 7, none] :=
  ⟨by decide, C2_queue_emptiness 6 _ (by decide), by decide⟩

/-! ## Stack: the weak-exchange loops -/

section StackLoops
variable {T : Type}

theorem Heap_storeNext_same {h : Heap T} {a : Nat} {v : T} {nx : Option Nat}
    (hc : h.cells a = some ⟨v, nx⟩) : h.storeNext (some a) nx = some h := by
  simp only [Heap.storeNext, hc]
  congr 1
  cases h with
  | mk cells fresh =>
    simp only [Heap.mk.injEq, and_true]
    funext b
    by_cases hb : b = a
    · subst hb; simpa using hc.symm
    · simp [hb]

theorem PushLoop_spec (new_top : Nat) (v : T) :
    ∀ (k fuel : Nat) (s : LockFreeStack T), k + 1 ≤ fuel →
      s.heap.cells new_top = some ⟨v, s.top_⟩ →
      LockFreeStack.PushLoop new_top fuel k s.top_ s = some { s with top_ := some new_top } := by
  intro k
  induction k with
  | zero =>
    intro fuel s hfuel _
    obtain ⟨fuel, rfl⟩ : ∃ f, fuel = f + 1 := ⟨fuel - 1, by omega⟩
    simp [LockFreeStack.PushLoop, compare_exchange_weak, compare_exchange_strong]
  | succ k ih =>
    intro fuel s hfuel hc
    obtain ⟨fuel, rfl⟩ : ∃ f, fuel = f + 1 := ⟨fuel - 1, by omega⟩
    have := ih fuel s (by omega) hc
    simp [LockFreeStack.PushLoop, compare_exchange_weak, Heap_storeNext_same hc, this]

theorem PushGarbageLoop_spec (garbage : Nat) (v : T) :
    ∀ (k fuel : Nat) (s : LockFreeStack T), k + 1 ≤ fuel →
      s.heap.cells garbage = some ⟨v, s.garbage_top_⟩ →
      LockFreeStack.PushGarbageLoop (some garbage) fuel k s.garbage_top_ s =
        some { s with garbage_top_ := some garbage } := by
  intro k
  induction k with
  | zero =>
    intro fuel s hfuel _
    obtain ⟨fuel, rfl⟩ : ∃ f, fuel = f + 1 := ⟨fuel - 1, by omega⟩
    simp [LockFreeStack.PushGarbageLoop, compare_exchange_weak, compare_exchange_strong]
  | succ k ih =>
    intro fuel s hfuel hc
    obtain ⟨fuel, rfl⟩ : ∃ f, fuel = f + 1 := ⟨fuel - 1, by omega⟩
    have := ih fuel s (by omega) hc
    simp [LockFreeStack.PushGarbageLoop, compare_exchange_weak, Heap_storeNext_same hc, this]

end StackLoops

/-! ## Stack: `Push` and `Pop` keep the invariant, histories refine the list stack -/

section StackCalls
variable {T : Type}

theorem SInv_new : SInv (LockFreeStack.new : LockFreeStack T) [] [] :=
  ⟨rfl, rfl, by simp, fun _ _ => rfl⟩

theorem SInv_lt_fresh {s : LockFreeStack T} {live garb : List (Nat × T)}
    (inv : SInv s live garb) {x : Nat × T} (hx : x ∈ live ++ garb) : x.1 < s.heap.fresh := by
  have hc : ∃ nx, s.heap.cells x.1 = some ⟨x.2, nx⟩ := by
    rcases List.mem_append.1 hx with h | h
    · exact Chain_live _ _ _ inv.chain x h
    · exact Chain_live _ _ _ inv.gchain x h
  obtain ⟨nx, hc⟩ := hc
  by_contra hlt
  rw [inv.unused x.1 (by omega)] at hc
  cases hc

theorem Push_spec {s : LockFreeStack T} {live garb : List (Nat × T)}
    (inv : SInv s live garb) (v : T) (fuel k : Nat) (hfuel : k + 1 ≤ fuel) :
    ∃ s2, s.Push fuel k v = some s2 ∧ SInv s2 ((s.heap.fresh, v) :: live) garb ∧
      s2.heap.fresh = s.heap.fresh + 1 := by
  have hloop := PushLoop_spec s.heap.fresh v k fuel
    { heap := { cells := fun b => if b = s.heap.fresh then some ⟨v, s.top_⟩ else s.heap.cells b,
                fresh := s.heap.fresh + 1 },
      top_ := s.top_, garbage_top_ := s.garbage_top_ } hfuel (by simp)
  refine ⟨{ heap := { cells := fun b => if b = s.heap.fresh then some ⟨v, s.top_⟩
                                  else s.heap.cells b,
                      fresh := s.heap.fresh + 1 },
            top_ := some s.heap.fresh, garbage_top_ := s.garbage_top_ }, ?_, ?_, rfl⟩
  · simp only [LockFreeStack.Push, Heap.alloc, Heap.storeNext, if_true, Option.bind_eq_bind,
      Option.some_bind]
    rw [← hloop]
    congr 2
    simp only [Heap.mk.injEq, and_true]
    funext b
    by_cases hb : b = s.heap.fresh <;> simp [hb]
  · have hframe : ∀ x ∈ live ++ garb,
        (if x.1 = s.heap.fresh then some (⟨v, s.top_⟩ : Node T) else s.heap.cells x.1) =
          s.heap.cells x.1 := by
      intro x hx
      have := SInv_lt_fresh inv hx
      simp [Nat.ne_of_lt this]
    refine ⟨?_, ?_, ?_, ?_⟩
    · refine ⟨rfl, s.top_, by simp, ?_⟩
      exact Chain_frame _ _ _ (fun x hx => hframe x (List.mem_append_left _ hx)) inv.chain
    · exact Chain_frame _ _ _ (fun x hx => hframe x (List.mem_append_right _ hx)) inv.gchain
    · simp only [List.cons_append, List.map_cons, List.nodup_cons]
      refine ⟨?_, inv.nodup⟩
      intro hmem
      obtain ⟨x, hx, hxe⟩ := List.mem_map.1 hmem
      have := SInv_lt_fresh inv hx
      omega
    · intro a ha
      have h1 : a ≠ s.heap.fresh := by
        intro h; subst h; simp at ha
      simp only [h1, if_false]
      exact inv.unused a (by simp at ha; omega)

theorem Pop_spec_nil {s : LockFreeStack T} {garb : List (Nat × T)}
    (inv : SInv s [] garb) (fuel k : Nat) (hfuel : 1 ≤ fuel) :
    s.Pop fuel k = some (s, none) := by
  obtain ⟨fuel, rfl⟩ : ∃ f, fuel = f + 1 := ⟨fuel - 1, by omega⟩
  have htop : s.top_ = none := inv.chain
  simp [LockFreeStack.Pop, LockFreeStack.PopLoop, htop]

theorem Pop_spec_cons {s : LockFreeStack T} {live garb : List (Nat × T)} {x : Nat × T}
    (inv : SInv s (x :: live) garb) (fuel k : Nat) (hfuel : k + 1 ≤ fuel) :
    ∃ s2, s.Pop fuel k = some (s2, some x.2) ∧ SInv s2 live (x :: garb) ∧
      s2.heap.fresh = s.heap.fresh := by
  obtain ⟨f, rfl⟩ : ∃ f, fuel = f + 1 := ⟨fuel - 1, by omega⟩
  obtain ⟨htop, nx, hc, hrest⟩ := inv.chain
  have hnd := inv.nodup
  simp only [List.cons_append, List.map_cons, List.nodup_cons] at hnd
  have hne : ∀ y ∈ live ++ garb, y.1 ≠ x.1 :=
    fun y hy h => hnd.1 (List.mem_map.2 ⟨y, hy, h⟩)
  have hloop := PushGarbageLoop_spec x.1 x.2 k (f + 1)
    { heap := { cells := fun b => if b = x.1 then some ⟨x.2, s.garbage_top_⟩ else s.heap.cells b,
                fresh := s.heap.fresh },
      top_ := nx, garbage_top_ := s.garbage_top_ } hfuel (by simp)
  refine ⟨{ heap := { cells := fun b => if b = x.1 then some ⟨x.2, s.garbage_top_⟩
                                  else s.heap.cells b,
                      fresh := s.heap.fresh },
            top_ := nx, garbage_top_ := some x.1 }, ?_, ?_, rfl⟩
  · simp only [LockFreeStack.Pop, LockFreeStack.PopLoop, htop, Heap.deref, hc,
      compare_exchange_strong, LockFreeStack.PushGarbage, Heap.storeNext]
    simp only [reduceCtorEq, if_false, if_true, Option.bind_eq_bind, Option.some_bind]
    rw [hloop]
    rfl
  · have hframe : ∀ y ∈ live ++ garb,
        (if y.1 = x.1 then some (⟨x.2, s.garbage_top_⟩ : Node T) else s.heap.cells y.1) =
          s.heap.cells y.1 := by
      intro y hy
      simp [hne y hy]
    refine ⟨?_, ?_, ?_, ?_⟩
    · exact Chain_frame _ _ _ (fun y hy => hframe y (List.mem_append_left _ hy)) hrest
    · refine ⟨rfl, s.garbage_top_, by simp, ?_⟩
      exact Chain_frame _ _ _ (fun y hy => hframe y (List.mem_append_right _ hy)) inv.gchain
    · have : List.Perm ((live ++ x :: garb).map Prod.fst) (((x :: live) ++ garb).map Prod.fst) := by
        simp only [List.map_append, List.map_cons, List.cons_append]
        exact List.perm_middle
      exact this.nodup_iff.2 inv.nodup
    · intro a ha
      have hx := SInv_lt_fresh inv (x := x) (by simp)
      have h1 : a ≠ x.1 := by
        intro h; subst h; simp at ha; omega
      simp only [h1, if_false]
      exact inv.unused a ha

theorem runStack_refines (ops : List (StackOp T)) :
    ∀ (s : LockFreeStack T) (live garb : List (Nat × T)) (fuel : Nat), SInv s live garb →
      (∀ op ∈ ops, op.spurious < fuel) →
      ∃ s2 live2 garb2, runStack fuel s ops = some (s2, (specStack (live.map Prod.snd) ops).2) ∧
        SInv s2 live2 garb2 ∧ live2.map Prod.snd = (specStack (live.map Prod.snd) ops).1 := by
  induction ops with
  | nil =>
    intro s live garb fuel inv _
    exact ⟨s, live, garb, by simp [runStack, specStack], inv, by simp [specStack]⟩
  | cons op ops ih =>
    intro s live garb fuel inv hsp
    have hop := hsp op (List.mem_cons_self _ _)
    have hrest : ∀ o ∈ ops, o.spurious < fuel := fun o ho => hsp o (List.mem_cons_of_mem _ ho)
    cases op with
    | push v k =>
      simp only [StackOp.spurious] at hop
      obtain ⟨s1, hs1, inv1, _⟩ := Push_spec inv v fuel k (by omega)
      obtain ⟨s2, live2, garb2, hrun, inv2, hl2⟩ := ih s1 _ garb fuel inv1 hrest
      refine ⟨s2, live2, garb2, ?_, inv2, ?_⟩
      · simp only [runStack, hs1, Option.bind_eq_bind, Option.some_bind, specStack]
        simpa using hrun
      · simpa [specStack] using hl2
    | pop k =>
      simp only [StackOp.spurious] at hop
      cases live with
      | nil =>
        have hs1 := Pop_spec_nil inv fuel k (by omega)
        obtain ⟨s2, live2, garb2, hrun, inv2, hl2⟩ := ih s [] garb fuel inv hrest
        refine ⟨s2, live2, garb2, ?_, inv2, ?_⟩
        · simp only [List.map_nil] at hrun
          simp [runStack, hs1, specStack, hrun]
        · simpa [specStack] using hl2
      | cons x live =>
        obtain ⟨s1, hs1, inv1, _⟩ := Pop_spec_cons inv fuel k (by omega)
        obtain ⟨s2, live2, garb2, hrun, inv2, hl2⟩ := ih s1 live _ fuel inv1 hrest
        refine ⟨s2, live2, garb2, ?_, inv2, ?_⟩
        · simp [runStack, hs1, specStack, hrun]
        · simpa [specStack] using hl2

theorem specStack_pushes (k : Nat) (vs : List T) (rest : List (StackOp T)) :
    ∀ s : List T, specStack s (vs.map (fun v => StackOp.push v k) ++ rest) =
      specStack (vs.reverse ++ s) rest := by
  induction vs with
  | nil => intro s; simp
  | cons v vs ih => intro s; simp [specStack, ih]

theorem specStack_drain (k : Nat) :
    ∀ s : List T, specStack s (List.replicate (s.length + 1) (StackOp.pop k)) =
      ([], s.map some ++ [none])
  | [] => by simp [List.replicate, specStack]
  | v :: s => by
    have := specStack_drain k s
    show specStack (v :: s) (StackOp.pop k :: List.replicate (s.length + 1) (StackOp.pop k)) = _
    rw [specStack]
    simp [this]

end StackCalls

/-- C3 (stack LIFO). For every sequential history `ops` on a freshly
constructed `LockFreeStack`, run with more fuel than the spurious failures of
any single call, every call returns and each `Pop` returns exactly what the
list stack `specStack` returns: `false` when no pushed value is un-popped,
otherwise `true` with the most recently pushed value not yet popped.  In
particular pushing `vs` and then popping `vs.length + 1` times yields the
values of `vs` in reverse order and then `false`. -/
theorem C3_stack_lifo {T : Type} (fuel : Nat) (ops : List (StackOp T)) (vs : List T) (k : Nat)
    (hops : ∀ op ∈ ops, op.spurious < fuel) (hk : k < fuel) :
    (∃ s, runStack fuel LockFreeStack.new ops = some (s, (specStack [] ops).2)) ∧
    (∃ s, runStack fuel LockFreeStack.new
        (vs.map (fun v => StackOp.push v k) ++ List.replicate (vs.length + 1) (StackOp.pop k)) =
      some (s, vs.reverse.map some ++ [none])) := by
  constructor
  · obtain ⟨s2, _, _, hrun, _, _⟩ :=
      runStack_refines ops LockFreeStack.new [] [] fuel SInv_new hops
    exact ⟨s2, by simpa using hrun⟩
  · obtain ⟨s2, _, _, hrun, _, _⟩ :=
      runStack_refines
        (vs.map (fun v => StackOp.push v k) ++ List.replicate (vs.length + 1) (StackOp.pop k))
        LockFreeStack.new [] [] fuel SInv_new (by
          intro op hop
          rcases List.mem_append.1 hop with h | h
          · obtain ⟨v, _, rfl⟩ := List.mem_map.1 h
            exact hk
          · rw [List.eq_of_mem_replicate h]
            exact hk)
    refine ⟨s2, ?_⟩
    have hd := specStack_drain k vs.reverse
    rw [List.length_reverse] at hd
    rw [hrun, List.map_nil, specStack_pushes, List.append_nil, hd]

/-- Witness of C3: push 1, push 2, then pop gives 2, pop gives 1, pop finds
the stack empty, whatever the weak exchanges do. -/
theorem C3_stack_lifo_witness :
    (∀ op ∈ ([StackOp.push 1 0, StackOp.push 2 3, StackOp.pop 1, StackOp.pop 0,
        StackOp.pop 2] : List (StackOp Nat)), op.spurious < 4) ∧ 2 < 4 ∧
    ((∃ s, runStack 4 LockFreeStack.new
        ([StackOp.push 1 0, StackOp.push 2 3, StackOp.pop 1, StackOp.pop 0,
          StackOp.pop 2] : List (StackOp Nat)) =
        some (s, (specStack []
          [StackOp.push 1 0, StackOp.push 2 3, StackOp.pop 1, StackOp.pop 0,
            StackOp.pop 2]).2)) ∧
    (∃ s, runStack 4 LockFreeStack.new
        (([1, 2] : List Nat).map (fun v => StackOp.push v 2) ++
          List.replicate (([1, 2] : List Nat).length + 1) (StackOp.pop 2)) =
      some (s, ([1, 2] : List Nat).reverse.map some ++ [none]))) ∧
    (runStack 4 (LockFreeStack.new : LockFreeStack Nat)
        [StackOp.push 1 0, StackOp.push 2 3, StackOp.pop 1, StackOp.pop 0,
          StackOp.pop 2]).map Prod.snd = some [some 2, some 1, none] :=
  ⟨by simp [StackOp.spurious], by decide,
    C3_stack_lifo 4 _ [1, 2] 2 (by simp [StackOp.spurious]) (by decide), by decide⟩

/-! ## Hash set: the representation invariant and what each call does to it -/

namespace StripedHashSet

set_option linter.unusedSectionVars false

variable {T : Type} [DecidableEq T] (hasher_ : T → Nat)

theorem set_split {l : List (List T)} :
    ∀ {i : Nat} {b : List T}, l[i]? = some b →
      ∃ pre post, l = pre ++ b :: post ∧ pre.length = i ∧ ∀ c, l.set i c = pre ++ c :: post := by
  induction l with
  | nil => intro i b h; simp at h
  | cons a l ih =>
    intro i b h
    cases i with
    | zero =>
      simp only [List.getElem?_cons_zero, Option.some.injEq] at h
      subst h
      exact ⟨[], l, rfl, rfl, fun c => rfl⟩
    | succ i =>
      simp only [List.getElem?_cons_succ] at h
      obtain ⟨pre, post, h1, h2, h3⟩ := ih h
      refine ⟨a :: pre, post, by rw [h1]; rfl, by simp [h2], fun c => ?_⟩
      simp [List.set, h3 c]

theorem lookup_bucket {l : List (List T)} (h : Nat) (hl : 0 < l.length) :
    ∃ b, l[h % l.length]? = some b :=
  ⟨_, List.getElem?_eq_getElem (Nat.mod_lt h hl)⟩

theorem HInv_mem_iff {s : StripedHashSet T} (inv : HInv hasher_ s) (x : T) {b : List T}
    (hb : s.buckets_[hasher_ x % s.buckets_.length]? = some b) :
    x ∈ s.buckets_.flatten ↔ x ∈ b := by
  constructor
  · intro hx
    obtain ⟨c, hc, hxc⟩ := List.mem_flatten.1 hx
    obtain ⟨i, hi⟩ := List.mem_iff_getElem?.1 hc
    have := inv.placed i c hi x hxc
    rw [this, hi] at hb
    cases hb
    exact hxc
  · intro hx
    exact List.mem_flatten.2 ⟨b, List.mem_iff_getElem?.2 ⟨_, hb⟩, hx⟩

theorem HInv_cl_ne_zero {s : StripedHashSet T} (inv : HInv hasher_ s)
    (hl : 0 < s.buckets_.length) : s.concurrency_level_ ≠ 0 := by
  intro h
  rw [inv.stripes h] at hl
  simp at hl

theorem Contains_eq {s : StripedHashSet T} (inv : HInv hasher_ s) (hl : 0 < s.buckets_.length)
    (x : T) : s.Contains hasher_ x = some (decide (x ∈ s.buckets_.flatten)) := by
  obtain ⟨b, hb⟩ := lookup_bucket (hasher_ x) hl
  have hcl := HInv_cl_ne_zero hasher_ inv hl
  have hmem := HInv_mem_iff hasher_ inv x hb
  simp [Contains, GetStripeIndex, GetBucketIndex, ContainsInBucket, hcl, Nat.ne_of_gt hl, hb, hmem]

theorem Contains_of_mem {s : StripedHashSet T} (inv : HInv hasher_ s)
    (hl : 0 < s.buckets_.length) {x : T} (hx : x ∈ s.buckets_.flatten) :
    s.Contains hasher_ x = some true := by
  rw [Contains_eq hasher_ inv hl]; simp [hx]

theorem Contains_of_not_mem {s : StripedHashSet T} (inv : HInv hasher_ s)
    (hl : 0 < s.buckets_.length) {x : T} (hx : x ∉ s.buckets_.flatten) :
    s.Contains hasher_ x = some false := by
  rw [Contains_eq hasher_ inv hl]; simp [hx]

theorem Contains_empty {s : StripedHashSet T} (hl : s.buckets_.length = 0) (x : T) :
    s.Contains hasher_ x = none := by
  simp [Contains, GetBucketIndex, hl]

theorem new_length (cl gf : Nat) (mlf : ℚ) :
    (StripedHashSet.new cl gf mlf : StripedHashSet T).buckets_.length =
      (cl * gf) % SIZE_T_RANGE := by
  simp [StripedHashSet.new]

theorem new_flatten (cl gf : Nat) (mlf : ℚ) :
    (StripedHashSet.new cl gf mlf : StripedHashSet T).buckets_.flatten = [] := by
  simp [StripedHashSet.new]

theorem HInv_new (cl gf : Nat) (mlf : ℚ) :
    HInv hasher_ (StripedHashSet.new cl gf mlf : StripedHashSet T) := by
  refine ⟨?_, ?_, ?_, ?_⟩
  · intro i b hb x hx
    simp only [StripedHashSet.new, List.getElem?_replicate] at hb
    split at hb
    · cases hb; simp at hx
    · cases hb
  · simp [StripedHashSet.new]
  · simp [StripedHashSet.new]
  · intro h
    simp only [StripedHashSet.new] at h ⊢
    simp [h]


theorem flatten_set_perm {l : List (List T)} {i : Nat} {b : List T} (h : l[i]? = some b)
    (c : List T) : ∃ rest, List.Perm l.flatten (b ++ rest) ∧
      List.Perm (l.set i c).flatten (c ++ rest) := by
  obtain ⟨pre, post, h1, _, h3⟩ := set_split h
  refine ⟨pre.flatten ++ post.flatten, ?_, ?_⟩
  · rw [h1]
    simp only [List.flatten_append, List.flatten_cons]
    rw [← List.append_assoc, ← List.append_assoc]
    exact List.Perm.append_right _ List.perm_append_comm
  · rw [h3 c]
    simp only [List.flatten_append, List.flatten_cons]
    rw [← List.append_assoc, ← List.append_assoc]
    exact List.Perm.append_right _ List.perm_append_comm

theorem flatten_set_cons_perm {l : List (List T)} {i : Nat} {b : List T} (h : l[i]? = some b)
    (x : T) : List.Perm (l.set i (x :: b)).flatten (x :: l.flatten) := by
  obtain ⟨rest, h1, h2⟩ := flatten_set_perm h (x :: b)
  exact h2.trans (List.Perm.cons x h1.symm)

theorem Placed_set {l : List (List T)} (hp : Placed hasher_ l) {i : Nat} {c : List T} (hc : ∀ x ∈ c, hasher_ x % l.length = i) :
    Placed hasher_ (l.set i c) := by
  intro j d hd x hx
  rw [List.length_set]
  rw [List.getElem?_set] at hd
  by_cases hij : i = j
  · subst hij
    rw [if_pos rfl] at hd
    split at hd
    · cases hd; exact hc x hx
    · cases hd
  · rw [if_neg hij] at hd
    exact hp j d hd x hx

theorem RehashElement_spec {n : Nat} (hn : 0 < n) {nb : List (List T)} (hlen : nb.length = n)
    (e : T) : ∃ b, nb[hasher_ e % n]? = some b ∧
      RehashElement hasher_ n nb e = some (nb.set (hasher_ e % n) (e :: b)) := by
  have hlt : hasher_ e % n < nb.length := by rw [hlen]; exact Nat.mod_lt _ hn
  refine ⟨nb[hasher_ e % n], List.getElem?_eq_getElem hlt, ?_⟩
  simp [RehashElement, GetBucketIndex, Nat.ne_of_gt hn, push_front, List.getElem?_eq_getElem hlt]

theorem rehash_flat {n : Nat} (hn : 0 < n) (L : List T) :
    ∀ nb : List (List T), nb.length = n → Placed hasher_ nb →
      ∃ nb2, L.foldlM (RehashElement hasher_ n) nb = some nb2 ∧ nb2.length = n ∧
        Placed hasher_ nb2 ∧ List.Perm nb2.flatten (L ++ nb.flatten) := by
  induction L with
  | nil => intro nb hlen hp; exact ⟨nb, rfl, hlen, hp, List.Perm.refl _⟩
  | cons e L ih =>
    intro nb hlen hp
    obtain ⟨b, hb, he⟩ := RehashElement_spec hasher_ hn hlen e
    have hp1 : Placed hasher_ (nb.set (hasher_ e % n) (e :: b)) := by
      refine Placed_set hasher_ hp ?_
      intro x hx
      rcases List.mem_cons.1 hx with rfl | hx
      · rw [hlen]
      · exact hp _ _ hb x hx
    obtain ⟨nb2, h1, h2, h3, h4⟩ := ih _ (by rw [List.length_set]; exact hlen) hp1
    refine ⟨nb2, ?_, h2, h3, ?_⟩
    · rw [List.foldlM_cons, he]; exact h1
    · refine h4.trans ?_
      refine (List.Perm.append_left L (flatten_set_cons_perm hb e)).trans ?_
      exact List.perm_middle

theorem rehash_flat_zero (L : List T) (hL : L ≠ []) (nb : List (List T)) :
    L.foldlM (RehashElement hasher_ 0) nb = none := by
  cases L with
  | nil => exact absurd rfl hL
  | cons e L => simp [List.foldlM_cons, RehashElement, GetBucketIndex]

theorem Rehash_eq (n : Nat) (buckets : List (List T)) :
    ∀ nb : List (List T),
      Rehash hasher_ n buckets nb = buckets.flatten.foldlM (RehashElement hasher_ n) nb := by
  induction buckets with
  | nil => intro nb; rfl
  | cons b buckets ih =>
    intro nb
    simp only [Rehash, List.foldlM_cons, List.flatten_cons, List.foldlM_append] at ih ⊢
    congr 1
    funext nb1
    exact ih nb1

theorem Placed_replicate (n : Nat) : Placed hasher_ (List.replicate n ([] : List T)) := by
  intro i b hb x hx
  rw [List.getElem?_replicate] at hb
  split at hb
  · cases hb; simp at hx
  · cases hb

theorem Resize_skip {s : StripedHashSet T} (hcl : s.concurrency_level_ ≠ 0)
    (hneed : s.NeedToResize = false) : s.Resize hasher_ = some s := by
  simp [Resize, hcl, hneed]

theorem Resize_grow {s : StripedHashSet T} (inv : HInv hasher_ s) (hl : 0 < s.buckets_.length)
    (hneed : s.NeedToResize = true)
    (hn : (s.buckets_.length * s.growth_factor_) % SIZE_T_RANGE ≠ 0)
    (hmax : (s.buckets_.length * s.growth_factor_) % SIZE_T_RANGE ≤ VECTOR_MAX_SIZE) :
    ∃ nb, s.Resize hasher_ = some { s with buckets_ := nb } ∧
      nb.length = (s.buckets_.length * s.growth_factor_) % SIZE_T_RANGE ∧
      HInv hasher_ { s with buckets_ := nb } ∧ List.Perm nb.flatten s.buckets_.flatten := by
  have hcl := HInv_cl_ne_zero hasher_ inv hl
  obtain ⟨nb, h1, h2, h3, h4⟩ := rehash_flat hasher_ (Nat.pos_of_ne_zero hn) s.buckets_.flatten
    (List.replicate ((s.buckets_.length * s.growth_factor_) % SIZE_T_RANGE) [])
    (by simp) (Placed_replicate hasher_ _)
  simp only [List.flatten_replicate_nil, List.append_nil] at h4
  refine ⟨nb, ?_, h2, ⟨h3, h4.nodup_iff.2 inv.nodup, ?_, ?_⟩, h4⟩
  · simp [Resize, hcl, hneed, Rehash_eq, h1, Nat.not_lt.2 hmax]
  · show s.num_elements_ = nb.flatten.length
    rw [h4.length_eq]; exact inv.count
  · intro h; exact absurd h hcl

/-- A resize to more buckets than a vector can hold throws. -/
theorem Resize_throw {s : StripedHashSet T} (hneed : s.NeedToResize = true)
    (hmax : VECTOR_MAX_SIZE < (s.buckets_.length * s.growth_factor_) % SIZE_T_RANGE) :
    s.Resize hasher_ = none := by
  by_cases hcl : s.concurrency_level_ = 0 <;> simp [Resize, hcl, hneed, hmax]

theorem Resize_fault {s : StripedHashSet T} (hneed : s.NeedToResize = true)
    (hn : (s.buckets_.length * s.growth_factor_) % SIZE_T_RANGE = 0)
    (hne : s.buckets_.flatten ≠ []) : s.Resize hasher_ = none := by
  by_cases hcl : s.concurrency_level_ = 0 <;>
    simp [Resize, hcl, hneed, hn, Rehash_eq, rehash_flat_zero hasher_ _ hne]


theorem Insert_empty {s : StripedHashSet T} (hl : s.buckets_.length = 0) (x : T) :
    s.Insert hasher_ x = none := by
  simp only [Insert, GetBucketIndex, hl]
  cases s.GetStripeIndex (hasher_ x) <;> rfl

theorem Remove_empty {s : StripedHashSet T} (hl : s.buckets_.length = 0) (x : T) :
    s.Remove hasher_ x = none := by
  simp only [Remove, GetBucketIndex, hl]
  cases s.GetStripeIndex (hasher_ x) <;> rfl

theorem Insert_found {s : StripedHashSet T} (inv : HInv hasher_ s) (hl : 0 < s.buckets_.length)
    {x : T} (hx : x ∈ s.buckets_.flatten) : s.Insert hasher_ x = some (s, false) := by
  obtain ⟨b, hb⟩ := lookup_bucket (hasher_ x) hl
  have hcl := HInv_cl_ne_zero hasher_ inv hl
  have hmem := (HInv_mem_iff hasher_ inv x hb).1 hx
  simp [Insert, GetStripeIndex, GetBucketIndex, ContainsInBucket, hcl, Nat.ne_of_gt hl, hb, hmem]

theorem Insert_fresh {s : StripedHashSet T} (inv : HInv hasher_ s) (hl : 0 < s.buckets_.length)
    {x : T} (hx : x ∉ s.buckets_.flatten) :
    ∃ nb, nb.length = s.buckets_.length ∧ List.Perm nb.flatten (x :: s.buckets_.flatten) ∧
      HInv hasher_ { s with buckets_ := nb, num_elements_ := s.num_elements_ + 1 } ∧
      s.Insert hasher_ x =
        if ({ s with buckets_ := nb, num_elements_ := s.num_elements_ + 1 } :
            StripedHashSet T).NeedToResize
        then (({ s with buckets_ := nb, num_elements_ := s.num_elements_ + 1 } :
            StripedHashSet T).Resize hasher_).map (fun t => (t, true))
        else some ({ s with buckets_ := nb, num_elements_ := s.num_elements_ + 1 }, true) := by
  obtain ⟨b, hb⟩ := lookup_bucket (hasher_ x) hl
  have hcl := HInv_cl_ne_zero hasher_ inv hl
  have hmem : x ∉ b := fun h => hx ((HInv_mem_iff hasher_ inv x hb).2 h)
  have hperm := flatten_set_cons_perm hb x
  refine ⟨s.buckets_.set (hasher_ x % s.buckets_.length) (x :: b), by simp, hperm,
    ⟨?_, ?_, ?_, ?_⟩, ?_⟩
  · refine Placed_set hasher_ inv.placed ?_
    intro y hy
    rcases List.mem_cons.1 hy with rfl | hy
    · rfl
    · exact inv.placed _ _ hb y hy
  · exact hperm.nodup_iff.2 (List.nodup_cons.2 ⟨hx, inv.nodup⟩)
  · show s.num_elements_ + 1 = _
    rw [hperm.length_eq, List.length_cons, inv.count]
  · intro h; exact absurd h hcl
  · simp only [Insert, GetStripeIndex, GetBucketIndex, ContainsInBucket, hcl,
      Nat.ne_of_gt hl, hb, hmem, push_front, if_false, Option.bind_eq_bind, Option.some_bind,
      Option.map_some', decide_False, Bool.false_eq_true]
    split
    · cases hres : Resize hasher_ _ <;> simp [hres]
    · rfl

/-- What a completed `Insert` leaves behind. -/
theorem Insert_result {s s2 : StripedHashSet T} {x : T} {r : Bool} (inv : HInv hasher_ s)
    (h : s.Insert hasher_ x = some (s2, r)) :
    HInv hasher_ s2 ∧ 0 < s.buckets_.length ∧ 0 < s2.buckets_.length ∧
      r = decide (x ∉ s.buckets_.flatten) ∧
      List.Perm s2.buckets_.flatten (if r then x :: s.buckets_.flatten else s.buckets_.flatten) ∧
      s2.num_elements_ = (if r then s.num_elements_ + 1 else s.num_elements_) ∧
      s2.concurrency_level_ = s.concurrency_level_ ∧ s2.growth_factor_ = s.growth_factor_ ∧
      s2.max_load_factor_ = s.max_load_factor_ := by
  have hl : 0 < s.buckets_.length := by
    by_contra hl
    rw [Insert_empty hasher_ (by omega) x] at h
    cases h
  by_cases hx : x ∈ s.buckets_.flatten
  · rw [Insert_found hasher_ inv hl hx] at h
    cases h
    exact ⟨inv, hl, hl, by simp [hx], by simp, by simp, rfl, rfl, rfl⟩
  · obtain ⟨nb, hlen, hperm, inv1, hins⟩ := Insert_fresh hasher_ inv hl hx
    rw [hins] at h
    split at h
    · rename_i hneed
      by_cases hn : (nb.length * s.growth_factor_) % SIZE_T_RANGE = 0
      · have hne : nb.flatten ≠ [] := by
          intro he
          rw [he] at hperm
          exact absurd hperm.length_eq (by simp)
        rw [Resize_fault hasher_ hneed hn hne] at h
        cases h
      · by_cases hmax : VECTOR_MAX_SIZE < (nb.length * s.growth_factor_) % SIZE_T_RANGE
        · rw [Resize_throw hasher_ hneed hmax] at h
          cases h
        · obtain ⟨nb2, hres, hlen2, inv2, hperm2⟩ :=
            Resize_grow hasher_ inv1 (by rw [hlen] at *; exact hl) hneed hn
              (Nat.not_lt.1 hmax)
          rw [hres] at h
          cases h
          refine ⟨inv2, hl, ?_, by simp [hx], ?_, by simp, rfl, rfl, rfl⟩
          · show 0 < nb2.length
            rw [hlen2]; exact Nat.pos_of_ne_zero hn
          · simpa using hperm2.trans hperm
    · cases h
      exact ⟨inv1, hl, by rw [← hlen] at hl; exact hl, by simp [hx], by simpa using hperm,
        by simp, rfl, rfl, rfl⟩

theorem Remove_absent {s : StripedHashSet T} (inv : HInv hasher_ s) (hl : 0 < s.buckets_.length)
    {x : T} (hx : x ∉ s.buckets_.flatten) : s.Remove hasher_ x = some (s, false) := by
  obtain ⟨b, hb⟩ := lookup_bucket (hasher_ x) hl
  have hcl := HInv_cl_ne_zero hasher_ inv hl
  have hmem : x ∉ b := fun h => hx ((HInv_mem_iff hasher_ inv x hb).2 h)
  simp [Remove, GetStripeIndex, GetBucketIndex, ContainsInBucket, hcl, Nat.ne_of_gt hl, hb, hmem]

theorem Remove_present {s : StripedHashSet T} (inv : HInv hasher_ s)
    (hl : 0 < s.buckets_.length) {x : T} (hx : x ∈ s.buckets_.flatten) :
    ∃ nb, s.Remove hasher_ x =
        some ({ s with buckets_ := nb, num_elements_ := s.num_elements_ - 1 }, true) ∧
      nb.length = s.buckets_.length ∧ List.Perm (x :: nb.flatten) s.buckets_.flatten ∧
      HInv hasher_ { s with buckets_ := nb, num_elements_ := s.num_elements_ - 1 } := by
  obtain ⟨b, hb⟩ := lookup_bucket (hasher_ x) hl
  have hcl := HInv_cl_ne_zero hasher_ inv hl
  have hmem := (HInv_mem_iff hasher_ inv x hb).1 hx
  obtain ⟨rest, h1, h2⟩ := flatten_set_perm hb (b.filter (fun y => decide (y ≠ x)))
  have hbnd : b.Nodup := (h1.nodup_iff.1 inv.nodup).sublist (List.sublist_append_left b rest)
  have hfil : b.filter (fun y => decide (y ≠ x)) = b.erase x := by
    rw [hbnd.erase_eq_filter]
    congr 1
    funext y
    by_cases hy : y = x <;> simp [hy]
  have hperm : List.Perm
      (x :: (s.buckets_.set (hasher_ x % s.buckets_.length)
        (b.filter (fun y => decide (y ≠ x)))).flatten) s.buckets_.flatten := by
    refine (List.Perm.cons x h2).trans (List.Perm.trans ?_ h1.symm)
    rw [hfil, ← List.cons_append]
    exact List.Perm.append_right _ (List.perm_cons_erase hmem).symm
  refine ⟨_, ?_, by simp, hperm, ⟨?_, ?_, ?_, ?_⟩⟩
  · simp [Remove, GetStripeIndex, GetBucketIndex, ContainsInBucket, hcl, Nat.ne_of_gt hl, hb,
      hmem]
  · refine Placed_set hasher_ inv.placed ?_
    intro y hy
    exact inv.placed _ _ hb y (List.mem_of_mem_filter hy)
  · exact (List.nodup_cons.1 (hperm.nodup_iff.2 inv.nodup)).2
  · show s.num_elements_ - 1 =
      (s.buckets_.set (hasher_ x % s.buckets_.length)
        (b.filter (fun y => decide (y ≠ x)))).flatten.length
    have := hperm.length_eq
    rw [List.length_cons, ← inv.count] at this
    omega
  · intro h; exact absurd h hcl

/-- What a completed `Remove` leaves behind. -/
theorem Remove_result {s s2 : StripedHashSet T} {x : T} {r : Bool} (inv : HInv hasher_ s)
    (h : s.Remove hasher_ x = some (s2, r)) :
    HInv hasher_ s2 ∧ 0 < s.buckets_.length ∧ s2.buckets_.length = s.buckets_.length ∧
      r = decide (x ∈ s.buckets_.flatten) ∧
      List.Perm (if r then x :: s2.buckets_.flatten else s2.buckets_.flatten) s.buckets_.flatten ∧
      s2.num_elements_ = (if r then s.num_elements_ - 1 else s.num_elements_) ∧
      s2.concurrency_level_ = s.concurrency_level_ ∧ s2.growth_factor_ = s.growth_factor_ ∧
      s2.max_load_factor_ = s.max_load_factor_ := by
  have hl : 0 < s.buckets_.length := by
    by_contra hl
    rw [Remove_empty hasher_ (by omega) x] at h
    cases h
  by_cases hx : x ∈ s.buckets_.flatten
  · obtain ⟨nb, hrem, hlen, hperm, inv2⟩ := Remove_present hasher_ inv hl hx
    rw [hrem] at h
    cases h
    exact ⟨inv2, hl, hlen, by simp [hx], by simpa using hperm, by simp, rfl, rfl, rfl⟩
  · rw [Remove_absent hasher_ inv hl hx] at h
    cases h
    exact ⟨inv, hl, rfl, by simp [hx], by simp, by simp, rfl, rfl, rfl⟩

theorem Reachable_inv {s : StripedHashSet T} (h : Reachable hasher_ s) : HInv hasher_ s := by
  induction h with
  | new cl gf mlf => exact HInv_new hasher_ cl gf mlf
  | insert x _ hins ih => exact (Insert_result hasher_ ih hins).1
  | remove x _ hrem ih => exact (Remove_result hasher_ ih hrem).1


theorem ResizeDue_iff (s : StripedHashSet T) :
    s.ResizeDue = true ↔
      s.max_load_factor_ ≤ ((s.num_elements_ + 1 : Nat) : ℚ) / (s.buckets_.length : ℚ) := by
  simp [ResizeDue, NeedToResize, GetLoadFactor]

/-- Exact arithmetic is a rounding: the one of unlimited precision. -/
theorem IsRounding_id : IsRounding (fun q : ℚ => q) :=
  ⟨fun _ _ _ h _ => h, fun _ _ _ _ _ _ => rfl, fun q h _ => by
    have : (0 : ℚ) ≤ q / 2 ^ 53 := div_nonneg (le_trans (by positivity) h) (by positivity)
    linarith⟩

theorem NeedToResize_pushed (s : StripedHashSet T) {nb : List (List T)}
    (hlen : nb.length = s.buckets_.length) :
    ({ s with buckets_ := nb, num_elements_ := s.num_elements_ + 1 } :
      StripedHashSet T).NeedToResize = s.ResizeDue := by
  simp [ResizeDue, NeedToResize, GetLoadFactor, hlen]

/-- A new element without a resize: the bucket count stays. -/
theorem Insert_keep {s : StripedHashSet T} (inv : HInv hasher_ s) (hl : 0 < s.buckets_.length)
    {x : T} (hx : x ∉ s.buckets_.flatten) (hdue : s.ResizeDue = false) :
    ∃ s2, s.Insert hasher_ x = some (s2, true) ∧ s2.buckets_.length = s.buckets_.length := by
  obtain ⟨nb, hlen, _, _, hins⟩ := Insert_fresh hasher_ inv hl hx
  rw [NeedToResize_pushed s hlen, hdue] at hins
  exact ⟨_, hins, hlen⟩

/-- A new element with a resize: the bucket count is multiplied, if the
product modulo `2 ^ 64` is not zero and not above `max_size()`. -/
theorem Insert_grow {s : StripedHashSet T} (inv : HInv hasher_ s) (hl : 0 < s.buckets_.length)
    {x : T} (hx : x ∉ s.buckets_.flatten) (hdue : s.ResizeDue = true)
    (hn : (s.buckets_.length * s.growth_factor_) % SIZE_T_RANGE ≠ 0)
    (hmax : (s.buckets_.length * s.growth_factor_) % SIZE_T_RANGE ≤ VECTOR_MAX_SIZE) :
    ∃ s2, s.Insert hasher_ x = some (s2, true) ∧
      s2.buckets_.length = (s.buckets_.length * s.growth_factor_) % SIZE_T_RANGE := by
  obtain ⟨nb, hlen, _, inv1, hins⟩ := Insert_fresh hasher_ inv hl hx
  rw [NeedToResize_pushed s hlen, hdue] at hins
  have hneed : ({ s with buckets_ := nb, num_elements_ := s.num_elements_ + 1 } :
      StripedHashSet T).NeedToResize = true := by rw [NeedToResize_pushed s hlen, hdue]
  obtain ⟨nb2, hres, hlen2, _, _⟩ :=
    Resize_grow hasher_ inv1 (by show 0 < nb.length; rw [hlen]; exact hl) hneed
      (by show (nb.length * s.growth_factor_) % SIZE_T_RANGE ≠ 0; rw [hlen]; exact hn)
      (by show (nb.length * s.growth_factor_) % SIZE_T_RANGE ≤ VECTOR_MAX_SIZE
          rw [hlen]; exact hmax)
  rw [hres] at hins
  refine ⟨_, hins, ?_⟩
  show nb2.length = _
  rw [hlen2]
  show (nb.length * s.growth_factor_) % SIZE_T_RANGE = _
  rw [hlen]

/-- A new element with a resize to zero buckets: undefined behaviour. -/
theorem Insert_fault {s : StripedHashSet T} (inv : HInv hasher_ s) (hl : 0 < s.buckets_.length)
    {x : T} (hx : x ∉ s.buckets_.flatten) (hdue : s.ResizeDue = true)
    (hn : (s.buckets_.length * s.growth_factor_) % SIZE_T_RANGE = 0) :
    s.Insert hasher_ x = none := by
  obtain ⟨nb, hlen, hperm, _, hins⟩ := Insert_fresh hasher_ inv hl hx
  rw [NeedToResize_pushed s hlen, hdue] at hins
  have hneed : ({ s with buckets_ := nb, num_elements_ := s.num_elements_ + 1 } :
      StripedHashSet T).NeedToResize = true := by rw [NeedToResize_pushed s hlen, hdue]
  have hne : nb.flatten ≠ [] := by
    intro he
    rw [he] at hperm
    exact absurd hperm.length_eq (by simp)
  have hn2 : (nb.length * s.growth_factor_) % SIZE_T_RANGE = 0 := by rw [hlen]; exact hn
  rw [Resize_fault hasher_ hneed hn2 hne] at hins
  exact hins

/-- A new element with a resize to more buckets than a vector can hold:
`std::length_error` leaves the call. -/
theorem Insert_throw {s : StripedHashSet T} (inv : HInv hasher_ s) (hl : 0 < s.buckets_.length)
    {x : T} (hx : x ∉ s.buckets_.flatten) (hdue : s.ResizeDue = true)
    (hmax : VECTOR_MAX_SIZE < (s.buckets_.length * s.growth_factor_) % SIZE_T_RANGE) :
    s.Insert hasher_ x = none := by
  obtain ⟨nb, hlen, _, _, hins⟩ := Insert_fresh hasher_ inv hl hx
  rw [NeedToResize_pushed s hlen, hdue] at hins
  have hneed : ({ s with buckets_ := nb, num_elements_ := s.num_elements_ + 1 } :
      StripedHashSet T).NeedToResize = true := by rw [NeedToResize_pushed s hlen, hdue]
  have hmax2 : VECTOR_MAX_SIZE < (nb.length * s.growth_factor_) % SIZE_T_RANGE := by
    rw [hlen]; exact hmax
  rw [Resize_throw hasher_ hneed hmax2] at hins
  exact hins

/-- The bucket count after a completed `Insert`. -/
theorem Insert_length {s s2 : StripedHashSet T} {x : T} {r : Bool} (inv : HInv hasher_ s)
    (h : s.Insert hasher_ x = some (s2, r)) :
    s2.buckets_.length =
      if r = true ∧ s.ResizeDue = true
      then (s.buckets_.length * s.growth_factor_) % SIZE_T_RANGE else s.buckets_.length := by
  obtain ⟨_, hl, _, hr, _⟩ := Insert_result hasher_ inv h
  by_cases hx : x ∈ s.buckets_.flatten
  · rw [Insert_found hasher_ inv hl hx] at h
    cases h
    simp
  · cases hdue : s.ResizeDue with
    | false =>
      obtain ⟨s3, h3, hlen⟩ := Insert_keep hasher_ inv hl hx hdue
      rw [h3] at h
      cases h
      simp [hlen]
    | true =>
      by_cases hn : (s.buckets_.length * s.growth_factor_) % SIZE_T_RANGE = 0
      · rw [Insert_fault hasher_ inv hl hx hdue hn] at h
        cases h
      · by_cases hmax :
            VECTOR_MAX_SIZE < (s.buckets_.length * s.growth_factor_) % SIZE_T_RANGE
        · rw [Insert_throw hasher_ inv hl hx hdue hmax] at h
          cases h
        · obtain ⟨s3, h3, hlen⟩ :=
            Insert_grow hasher_ inv hl hx hdue hn (Nat.not_lt.1 hmax)
          rw [h3] at h
          cases h
          simp [hlen]

/-- What a completed `Resize` leaves behind. -/
theorem Resize_result {s s2 : StripedHashSet T} (inv : HInv hasher_ s)
    (h : s.Resize hasher_ = some s2) :
    HInv hasher_ s2 ∧ List.Perm s2.buckets_.flatten s.buckets_.flatten := by
  have hcl : s.concurrency_level_ ≠ 0 := by
    intro hc
    simp [Resize, hc] at h
  cases hneed : s.NeedToResize with
  | false =>
    rw [Resize_skip hasher_ hcl hneed] at h
    cases h
    exact ⟨inv, List.Perm.refl _⟩
  | true =>
    by_cases hn : (s.buckets_.length * s.growth_factor_) % SIZE_T_RANGE = 0
    · by_cases hne : s.buckets_.flatten = []
      · simp only [Resize, hcl, hneed, hn, Rehash_eq, hne] at h
        simp at h
        subst h
        refine ⟨⟨?_, by simp, ?_, fun hc => absurd hc hcl⟩, by simp [hne]⟩
        · intro i b hb
          simp at hb
        · have := inv.count
          rw [hne] at this
          simpa using this
      · rw [Resize_fault hasher_ hneed hn hne] at h
        cases h
    · have hl : 0 < s.buckets_.length := by
        by_contra hl
        have : s.buckets_.length = 0 := by omega
        rw [this] at hn
        simp at hn
      by_cases hmax : VECTOR_MAX_SIZE < (s.buckets_.length * s.growth_factor_) % SIZE_T_RANGE
      · rw [Resize_throw hasher_ hneed hmax] at h
        cases h
      · obtain ⟨nb, hres, _, inv2, hperm⟩ :=
          Resize_grow hasher_ inv hl hneed hn (Nat.not_lt.1 hmax)
        rw [hres] at h
        cases h
        exact ⟨inv2, hperm⟩

theorem Resize_size {s s2 : StripedHashSet T} (h : s.Resize hasher_ = some s2) :
    s2.Size = s.Size := by
  by_cases hcl : s.concurrency_level_ = 0
  · simp [Resize, hcl] at h
  · cases hneed : s.NeedToResize with
    | false =>
      simp [Resize, hcl, hneed] at h
      rw [← h]
    | true =>
      cases hr : Rehash hasher_ ((s.buckets_.length * s.growth_factor_) % SIZE_T_RANGE)
        s.buckets_ (List.replicate ((s.buckets_.length * s.growth_factor_) % SIZE_T_RANGE) [])
        with
      | none => simp [Resize, hcl, hneed, hr] at h
      | some nb =>
        simp [Resize, hcl, hneed, hr] at h
        rw [← h.2]
        rfl


/-- Histories stay within the reachable states. -/
theorem runSet_reachable (ops : List (SetOp T)) :
    ∀ (s s2 : StripedHashSet T) (outs : List Bool), Reachable hasher_ s →
      runSet hasher_ s ops = some (s2, outs) → Reachable hasher_ s2 := by
  induction ops with
  | nil =>
    intro s s2 outs hs h
    simp only [runSet, Option.some.injEq, Prod.mk.injEq] at h
    rw [← h.1]; exact hs
  | cons op ops ih =>
    intro s s2 outs hs h
    cases op with
    | insert x =>
      simp only [runSet, Option.bind_eq_bind] at h
      cases hi : s.Insert hasher_ x with
      | none => simp [hi] at h
      | some r =>
        simp only [hi, Option.some_bind] at h
        cases hr : runSet hasher_ r.1 ops with
        | none => simp [hr] at h
        | some rest =>
          simp only [hr, Option.some_bind, Option.some.injEq, Prod.mk.injEq] at h
          have h1 : Reachable hasher_ r.1 := Reachable.insert x hs (r := r.2) hi
          have := ih r.1 rest.1 rest.2 h1 hr
          rw [← h.1]; exact this
    | remove x =>
      simp only [runSet, Option.bind_eq_bind] at h
      cases hi : s.Remove hasher_ x with
      | none => simp [hi] at h
      | some r =>
        simp only [hi, Option.some_bind] at h
        cases hr : runSet hasher_ r.1 ops with
        | none => simp [hr] at h
        | some rest =>
          simp only [hr, Option.some_bind, Option.some.injEq, Prod.mk.injEq] at h
          have h1 : Reachable hasher_ r.1 := Reachable.remove x hs (r := r.2) hi
          have := ih r.1 rest.1 rest.2 h1 hr
          rw [← h.1]; exact this
    | contains x =>
      simp only [runSet, Option.bind_eq_bind] at h
      cases hi : s.Contains hasher_ x with
      | none => simp [hi] at h
      | some r =>
        simp only [hi, Option.some_bind] at h
        cases hr : runSet hasher_ s ops with
        | none => simp [hr] at h
        | some rest =>
          simp only [hr, Option.some_bind, Option.some.injEq, Prod.mk.injEq] at h
          have := ih s rest.1 rest.2 hs hr
          rw [← h.1]; exact this

end StripedHashSet

section SetInsertClaims

open StripedHashSet

end SetInsertClaims

namespace StripedHashSet

set_option linter.unusedSectionVars false

variable {T : Type} [DecidableEq T] (hasher_ : T → Nat)

/-- A completed history returns what the specification's set returns. -/
theorem runSet_refines (ops : List (SetOp T)) :
    ∀ (s s2 : StripedHashSet T) (S : List T) (outs : List Bool), HInv hasher_ s →
      (∀ y, y ∈ S ↔ y ∈ s.buckets_.flatten) →
      runSet hasher_ s ops = some (s2, outs) → outs = specSet S ops := by
  induction ops with
  | nil =>
    intro s s2 S outs _ _ h
    simp only [runSet, Option.some.injEq, Prod.mk.injEq] at h
    rw [← h.2]; rfl
  | cons op ops ih =>
    intro s s2 S outs inv hS h
    cases op with
    | insert x =>
      simp only [runSet, Option.bind_eq_bind] at h
      cases hi : s.Insert hasher_ x with
      | none => simp [hi] at h
      | some r =>
        obtain ⟨s1, b⟩ := r
        simp only [hi, Option.some_bind] at h
        cases hr : runSet hasher_ s1 ops with
        | none => simp [hr] at h
        | some rest =>
          simp only [hr, Option.some_bind, Option.some.injEq, Prod.mk.injEq] at h
          obtain ⟨inv1, _, _, hb, hperm, _⟩ := Insert_result hasher_ inv hi
          rw [← h.2]
          by_cases hx : x ∈ s.buckets_.flatten
          · have hb2 : b = false := by simpa [hx] using hb
            subst hb2
            simp only [Bool.false_eq_true, if_false] at hperm
            have := ih s1 rest.1 S rest.2 inv1
              (fun y => (hS y).trans ⟨fun hy => hperm.symm.subset hy, fun hy => hperm.subset hy⟩)
              hr
            simp [specSet, (hS x).2 hx, this]
          · have hb2 : b = true := by simpa [hx] using hb
            subst hb2
            simp only [if_true] at hperm
            have hxS : x ∉ S := fun hc => hx ((hS x).1 hc)
            have := ih s1 rest.1 (x :: S) rest.2 inv1 (by
              intro y
              rw [hperm.mem_iff, List.mem_cons, List.mem_cons, hS y]) hr
            simp [specSet, hxS, this]
    | remove x =>
      simp only [runSet, Option.bind_eq_bind] at h
      cases hi : s.Remove hasher_ x with
      | none => simp [hi] at h
      | some r =>
        obtain ⟨s1, b⟩ := r
        simp only [hi, Option.some_bind] at h
        cases hr : runSet hasher_ s1 ops with
        | none => simp [hr] at h
        | some rest =>
          simp only [hr, Option.some_bind, Option.some.injEq, Prod.mk.injEq] at h
          obtain ⟨inv1, _, _, hb, hperm, _⟩ := Remove_result hasher_ inv hi
          rw [← h.2]
          by_cases hx : x ∈ s.buckets_.flatten
          · have hb2 : b = true := by simpa [hx] using hb
            subst hb2
            simp only [if_true] at hperm
            have hnd := hperm.nodup_iff.2 inv.nodup
            have hx1 : x ∉ s1.buckets_.flatten := (List.nodup_cons.1 hnd).1
            have := ih s1 rest.1 (S.filter (fun y => decide (y ≠ x))) rest.2 inv1 (by
              intro y
              rw [List.mem_filter, hS y, ← hperm.mem_iff, List.mem_cons]
              constructor
              · rintro ⟨h1 | h1, h2⟩
                · simp [h1] at h2
                · exact h1
              · intro h1
                refine ⟨Or.inr h1, ?_⟩
                have : y ≠ x := fun hc => hx1 (hc ▸ h1)
                simpa using this) hr
            simp [specSet, (hS x).2 hx, this]
          · have hb2 : b = false := by simpa [hx] using hb
            subst hb2
            simp only [Bool.false_eq_true, if_false] at hperm
            have hxS : x ∉ S := fun hc => hx ((hS x).1 hc)
            have := ih s1 rest.1 S rest.2 inv1
              (fun y => (hS y).trans ⟨fun hy => hperm.symm.subset hy, fun hy => hperm.subset hy⟩)
              hr
            simp [specSet, hxS, this]
    | contains x =>
      simp only [runSet, Option.bind_eq_bind] at h
      cases hi : s.Contains hasher_ x with
      | none => simp [hi] at h
      | some b =>
        simp only [hi, Option.some_bind] at h
        cases hr : runSet hasher_ s ops with
        | none => simp [hr] at h
        | some rest =>
          simp only [hr, Option.some_bind, Option.some.injEq, Prod.mk.injEq] at h
          have hl : 0 < s.buckets_.length := by
            by_contra hl
            rw [Contains_empty hasher_ (by omega) x] at hi
            cases hi
          rw [Contains_eq hasher_ inv hl] at hi
          have hb : b = decide (x ∈ S) := by
            rw [← Option.some.inj hi]
            simp [hS x]
          have := ih s rest.1 S rest.2 inv hS hr
          rw [← h.2, hb, this]
          rfl

end StripedHashSet

section SetRemoveClaims

open StripedHashSet

/-- C5 (hash-set remove). For every state `s` reachable by a sequential
history and every value `x`: `Remove(x)` returns `true` if and only if `x` is
currently contained; whenever `Remove(x)` returns, `Contains(x)` is `false`
afterwards and a second `Remove(x)` returns `false`; `Remove(x)` does return
when the bucket array is not empty; and the calls of every completed history
from a new set return what the specification's set `specSet` returns, so a
value is contained exactly when it was inserted and not removed since,
resizes or not. -/
theorem C5_remove {T : Type} [DecidableEq T] (hasher_ : T → Nat) (s : StripedHashSet T) (x : T)
    (hreach : Reachable hasher_ s) :
    ((∃ s1, s.Remove hasher_ x = some (s1, true)) ↔ s.Contains hasher_ x = some true) ∧
    (∀ s1 r, s.Remove hasher_ x = some (s1, r) →
      s1.Contains hasher_ x = some false ∧ ∃ s2, s1.Remove hasher_ x = some (s2, false)) ∧
    (0 < s.buckets_.length → ∃ s1 r, s.Remove hasher_ x = some (s1, r)) ∧
    (∀ (cl gf : Nat) (mlf : ℚ) (ops : List (SetOp T)) (s2 : StripedHashSet T)
      (outs : List Bool),
      runSet hasher_ (StripedHashSet.new cl gf mlf) ops = some (s2, outs) →
        outs = specSet [] ops) := by
  have inv := Reachable_inv hasher_ hreach
  refine ⟨⟨?_, ?_⟩, ?_, ?_, fun cl gf mlf ops s2 outs h =>
    runSet_refines hasher_ ops _ s2 [] outs (HInv_new hasher_ cl gf mlf)
      (fun y => by rw [new_flatten]) h⟩
  · rintro ⟨s1, h1⟩
    obtain ⟨_, hl, _, hr, _⟩ := Remove_result hasher_ inv h1
    have hx : x ∈ s.buckets_.flatten := by simpa using hr.symm
    exact Contains_of_mem hasher_ inv hl hx
  · intro hc
    have hl : 0 < s.buckets_.length := by
      by_contra hl
      rw [Contains_empty hasher_ (by omega) x] at hc
      cases hc
    have hx : x ∈ s.buckets_.flatten := by
      rw [Contains_eq hasher_ inv hl] at hc
      simpa using hc
    obtain ⟨nb, hrem, _⟩ := Remove_present hasher_ inv hl hx
    exact ⟨_, hrem⟩
  · intro s1 r h1
    obtain ⟨inv1, hl, hlen, hr, hperm, _⟩ := Remove_result hasher_ inv h1
    have hl1 : 0 < s1.buckets_.length := by rw [hlen]; exact hl
    have hx1 : x ∉ s1.buckets_.flatten := by
      intro hx1
      cases r with
      | true =>
        rw [if_pos rfl] at hperm
        have hnd := hperm.nodup_iff.2 inv.nodup
        exact (List.nodup_cons.1 hnd).1 hx1
      | false =>
        simp only [Bool.false_eq_true, if_false] at hperm
        have : x ∈ s.buckets_.flatten := hperm.subset hx1
        simp [this] at hr
    exact ⟨Contains_of_not_mem hasher_ inv1 hl1 hx1, s1, Remove_absent hasher_ inv1 hl1 hx1⟩
  · intro hl
    by_cases hx : x ∈ s.buckets_.flatten
    · obtain ⟨nb, hrem, _⟩ := Remove_present hasher_ inv hl hx
      exact ⟨_, _, hrem⟩
    · exact ⟨_, _, Remove_absent hasher_ inv hl hx⟩

/-- Witness of C5, with `concurrency_level = 4` and strings hashed by their
length: insert "a" gives `true`, insert "a" gives `false`, remove "a" gives
`true`, remove "a" gives `false`, contains "a" gives `false`. -/
theorem C5_remove_witness :
    (runSet String.length (StripedHashSet.new 4 3 (3 / 4))
        [SetOp.insert "a", SetOp.insert "a", SetOp.remove "a", SetOp.remove "a",
          SetOp.contains "a"]).map Prod.snd = some [true, false, true, false, false] ∧
    Reachable String.length exampleSetA ∧
    ((∃ s1, exampleSetA.Remove String.length "a" = some (s1, true)) ↔
      exampleSetA.Contains String.length "a" = some true) ∧
    (∀ s1 r, exampleSetA.Remove String.length "a" = some (s1, r) →
      s1.Contains String.length "a" = some false ∧
        ∃ s2, s1.Remove String.length "a" = some (s2, false)) ∧
    (0 < exampleSetA.buckets_.length →
      ∃ s1 r, exampleSetA.Remove String.length "a" = some (s1, r)) ∧
    (∀ (cl gf : Nat) (mlf : ℚ) (ops : List (SetOp String)) (s2 : StripedHashSet String)
      (outs : List Bool),
      runSet String.length (StripedHashSet.new cl gf mlf) ops = some (s2, outs) →
        outs = specSet [] ops) :=
  have hreach : Reachable String.length exampleSetA :=
    runSet_reachable String.length [SetOp.insert "a", SetOp.insert "a"] _ _ [true, false]
      (Reachable.new 4 3 (3 / 4)) (by decide!)
  ⟨by decide!, hreach, C5_remove String.length exampleSetA "a" hreach⟩

end SetRemoveClaims

section SetResizeClaims

open StripedHashSet

/-- C6 (resize preserves membership). For every state `s` reachable by a
sequential history and every `Insert(x)` that adds `x`, crosses the
load-factor threshold and returns in state `s2`: every value contained before
is contained after, `x` is contained, no other value becomes contained, the
stored elements after are exactly the stored elements before plus `x`, each
once (a permutation without duplicates), and the bucket count is the old one
times `growth_factor` modulo `2 ^ 64`.  `Resize` itself, whenever it returns,
stores a permutation of what was stored. -/
theorem C6_resize_preserves_membership {T : Type} [DecidableEq T] (hasher_ : T → Nat)
    (s s2 : StripedHashSet T) (x : T) (hreach : Reachable hasher_ s)
    (hins : s.Insert hasher_ x = some (s2, true)) (hdue : s.ResizeDue = true) :
    (∀ y, s.Contains hasher_ y = some true → s2.Contains hasher_ y = some true) ∧
    s2.Contains hasher_ x = some true ∧
    (∀ y, y ≠ x → s2.Contains hasher_ y = some true → s.Contains hasher_ y = some true) ∧
    List.Perm s2.buckets_.flatten (x :: s.buckets_.flatten) ∧
    s2.buckets_.flatten.Nodup ∧
    s2.buckets_.length = (s.buckets_.length * s.growth_factor_) % SIZE_T_RANGE ∧
    (∀ t t2 : StripedHashSet T, HInv hasher_ t → t.Resize hasher_ = some t2 →
      List.Perm t2.buckets_.flatten t.buckets_.flatten) := by
  have inv := Reachable_inv hasher_ hreach
  obtain ⟨inv2, hl, hl2, _, hperm, _⟩ := Insert_result hasher_ inv hins
  rw [if_pos rfl] at hperm
  have hlen := Insert_length hasher_ inv hins
  rw [if_pos ⟨rfl, hdue⟩] at hlen
  refine ⟨?_, ?_, ?_, hperm, inv2.nodup, hlen, fun t t2 ht h => (Resize_result hasher_ ht h).2⟩
  · intro y hy
    rw [Contains_eq hasher_ inv hl] at hy
    have hy1 : y ∈ s.buckets_.flatten := by simpa using hy
    exact Contains_of_mem hasher_ inv2 hl2 (hperm.symm.subset (List.mem_cons_of_mem _ hy1))
  · exact Contains_of_mem hasher_ inv2 hl2 (hperm.symm.subset (List.mem_cons_self _ _))
  · intro y hne hy
    rw [Contains_eq hasher_ inv2 hl2] at hy
    have hy1 : y ∈ s2.buckets_.flatten := by simpa using hy
    rcases List.mem_cons.1 (hperm.subset hy1) with h | h
    · exact absurd h hne
    · exact Contains_of_mem hasher_ inv hl h

/-- Witness of C6: with 2 stripes, growth factor 3 and threshold 3/4, the
insert of 5 into the set holding 1, 2, 3, 4 in 6 buckets resizes to 18. -/
theorem C6_resize_preserves_membership_witness :
    Reachable id exampleSet4 ∧ exampleSet4.Insert id 5 = some (exampleSet5, true) ∧
    exampleSet4.ResizeDue = true ∧
    ((∀ y, exampleSet4.Contains id y = some true → exampleSet5.Contains id y = some true) ∧
    exampleSet5.Contains id 5 = some true ∧
    (∀ y, y ≠ 5 → exampleSet5.Contains id y = some true →
      exampleSet4.Contains id y = some true) ∧
    List.Perm exampleSet5.buckets_.flatten (5 :: exampleSet4.buckets_.flatten) ∧
    exampleSet5.buckets_.flatten.Nodup ∧
    exampleSet5.buckets_.length =
      (exampleSet4.buckets_.length * exampleSet4.growth_factor_) % SIZE_T_RANGE ∧
    (∀ t t2 : StripedHashSet Nat, HInv id t → t.Resize id = some t2 →
      List.Perm t2.buckets_.flatten t.buckets_.flatten)) :=
  have hreach : Reachable id exampleSet4 :=
    runSet_reachable id [SetOp.insert 1, SetOp.insert 2, SetOp.insert 3, SetOp.insert 4] _ _
      [true, true, true, true] (Reachable.new 2 3 (3 / 4)) (by decide!)
  ⟨hreach, by decide!, by decide!,
    C6_resize_preserves_membership id exampleSet4 exampleSet5 5 hreach (by decide!) (by decide!)⟩

/-- C8 (size is the element count). In every state `s` reachable by a
sequential history, `Size()` is the total length of the bucket chains and the
number of distinct values `x` with `Contains(x) = true`; an `Insert` that
returns `true` raises `Size()` by exactly 1, a `Remove` that returns `true`
lowers it by exactly 1, an `Insert` or `Remove` that returns `false` and a
`Resize` leave it unchanged (`Contains` cannot change the state). -/
theorem C8_size {T : Type} [DecidableEq T] (hasher_ : T → Nat) (s : StripedHashSet T)
    (hreach : Reachable hasher_ s) :
    s.Size = (s.buckets_.map List.length).sum ∧
    (∃ l : List T, l.Nodup ∧ (∀ x, x ∈ l ↔ s.Contains hasher_ x = some true) ∧
      s.Size = l.length) ∧
    (∀ x s2, s.Insert hasher_ x = some (s2, true) → s2.Size = s.Size + 1) ∧
    (∀ x s2, s.Remove hasher_ x = some (s2, true) → s2.Size + 1 = s.Size) ∧
    (∀ x s2, s.Insert hasher_ x = some (s2, false) → s2.Size = s.Size) ∧
    (∀ x s2, s.Remove hasher_ x = some (s2, false) → s2.Size = s.Size) ∧
    (∀ t t2 : StripedHashSet T, t.Resize hasher_ = some t2 → t2.Size = t.Size) := by
  have inv := Reachable_inv hasher_ hreach
  refine ⟨?_, ?_, ?_, ?_, ?_, ?_, fun t t2 h => Resize_size hasher_ h⟩
  · show s.num_elements_ = _
    rw [inv.count, List.length_flatten]
  · refine ⟨s.buckets_.flatten, inv.nodup, ?_, inv.count⟩
    intro x
    by_cases hl : 0 < s.buckets_.length
    · rw [Contains_eq hasher_ inv hl]; simp
    · have h0 : s.buckets_ = [] := List.length_eq_zero.1 (by omega)
      rw [Contains_empty hasher_ (by omega) x, h0]
      simp
  · intro x s2 h
    obtain ⟨_, _, _, _, _, hnum, _⟩ := Insert_result hasher_ inv h
    simpa [Size] using hnum
  · intro x s2 h
    obtain ⟨_, _, _, hr, _, hnum, _⟩ := Remove_result hasher_ inv h
    have hx : x ∈ s.buckets_.flatten := by simpa using hr.symm
    have hpos : 0 < s.num_elements_ := by
      rw [inv.count]; exact List.length_pos_of_mem hx
    simp only [if_true] at hnum
    show s2.num_elements_ + 1 = s.num_elements_
    omega
  · intro x s2 h
    obtain ⟨_, _, _, _, _, hnum, _⟩ := Insert_result hasher_ inv h
    simpa [Size] using hnum
  · intro x s2 h
    obtain ⟨_, _, _, _, _, hnum, _⟩ := Remove_result hasher_ inv h
    simpa [Size] using hnum

/-- Witness of C8: the set holding 1, 2, 3, 4 has size 4; inserting 5 gives
size 5, removing 3 gives size 3. -/
theorem C8_size_witness :
    Reachable id exampleSet4 ∧ exampleSet4.Size = 4 ∧
    (exampleSet4.Insert id 5).map (fun r => (r.1.Size, r.2)) = some (5, true) ∧
    (exampleSet4.Remove id 3).map (fun r => (r.1.Size, r.2)) = some (3, true) ∧
    exampleSet4.Size = (exampleSet4.buckets_.map List.length).sum ∧
    (∃ l : List Nat, l.Nodup ∧ (∀ x, x ∈ l ↔ exampleSet4.Contains id x = some true) ∧
      exampleSet4.Size = l.length) :=
  have hreach : Reachable id exampleSet4 :=
    runSet_reachable id [SetOp.insert 1, SetOp.insert 2, SetOp.insert 3, SetOp.insert 4] _ _
      [true, true, true, true] (Reachable.new 2 3 (3 / 4)) (by decide!)
  ⟨hreach, by decide!, by decide!, by decide!, (C8_size id exampleSet4 hreach).1,
    (C8_size id exampleSet4 hreach).2.1⟩

end SetResizeClaims

/-! ## Queue: the in-flight counter, reclamation and the structural invariant -/

section QueueCounter
variable {T : Type}

theorem specQueue_split (ops : List (QueueOp T)) :
    ∀ s : List T, s ++ enqueued ops =
      (specQueue s ops).2.filterMap id ++ (specQueue s ops).1 := by
  induction ops with
  | nil => intro s; simp [specQueue, enqueued]
  | cons op ops ih =>
    intro s
    cases op with
    | enqueue v =>
      have := ih (s ++ [v])
      simpa [specQueue, enqueued] using this
    | dequeue =>
      cases s with
      | nil => simpa [specQueue, enqueued] using ih []
      | cons v s =>
        have := ih s
        simp only [specQueue, enqueued, List.filterMap_cons, id, List.cons_append]
        rw [this]

theorem QInv_tail_null {q : LockFreeQueue T} {g l : List (Nat × T)} {hd : Nat × T}
    (inv : QInv q g hd l) :
    q.heap.cells (l.getLast?.getD hd).1 = some ⟨(l.getLast?.getD hd).2, none⟩ := by
  obtain ⟨L, hL⟩ := List.getLast?_eq_some_iff.1 (@QInv_last_eq T g l hd)
  have hch := inv.chain
  rw [hL] at hch
  exact (Chain_unsnoc hch).2

end QueueCounter

/-- C11 (in-flight counter), evaluated where the code breaks it. A `Dequeue`
on a new queue returns `false` and leaves `operations_counter_` at 1 although
no call is in flight; more generally every `Dequeue` that finds the queue
empty returns through the early `return false` and leaves the counter one
higher than it found it. -/
theorem C11_counter_after_empty_dequeue :
    (LockFreeQueue.new : LockFreeQueue Nat).operations_counter_ = 0 ∧
    ((LockFreeQueue.new : LockFreeQueue Nat).Dequeue 1).map
      (fun r => (r.2, r.1.operations_counter_)) = some (none, 1) ∧
    (runQueue 2 (LockFreeQueue.new : LockFreeQueue Nat)
      [QueueOp.enqueue 7, QueueOp.dequeue]).map
      (fun r => (r.2, r.1.operations_counter_)) = some ([some 7], 0) ∧
    (runQueue 2 (LockFreeQueue.new : LockFreeQueue Nat)
      [QueueOp.dequeue, QueueOp.dequeue, QueueOp.enqueue 7, QueueOp.dequeue]).map
      (fun r => (r.2, r.1.operations_counter_)) = some ([none, none, some 7], 2) ∧
    (∀ (q : LockFreeQueue Nat) (g : List (Nat × Nat)) (hd : Nat × Nat) (fuel : Nat),
      QInv q g hd [] → 1 ≤ fuel → q.operations_counter_ + 1 < SIZE_T_RANGE →
      ∃ q2, q.Dequeue fuel = some (q2, none) ∧
        q2.operations_counter_ = q.operations_counter_ + 1) := by
  refine ⟨by decide, by decide, by decide, by decide, ?_⟩
  intro q g hd fuel inv hfuel hc
  refine ⟨q.incr, (Dequeue_spec_nil inv fuel hfuel).1, ?_⟩
  show (q.operations_counter_ + 1) % SIZE_T_RANGE = _
  exact Nat.mod_eq_of_lt hc

/-- C12 (quiescent reclamation), evaluated where the code breaks it. After a
`Dequeue` that found the queue empty, the successful `Dequeue` of the history
dequeue, enqueue 1, dequeue returns 1 but reclaims nothing: `garbage_head_`
still points to the old dummy node at address 0, which is live, while
`head_` is at address 1.  Without the empty `Dequeue` the same call frees
node 0 and leaves `garbage_head_ = head_`. -/
theorem C12_garbage_left_after_dequeue :
    (runQueue 3 (LockFreeQueue.new : LockFreeQueue Nat)
      [QueueOp.dequeue, QueueOp.enqueue 1, QueueOp.dequeue]).map
      (fun r => (r.2, r.1.garbage_head_, r.1.head_, (r.1.heap.cells 0).isSome,
        r.1.operations_counter_)) =
      some ([none, some 1], some 0, some 1, true, 1) ∧
    (runQueue 3 (LockFreeQueue.new : LockFreeQueue Nat)
      [QueueOp.enqueue 1, QueueOp.dequeue]).map
      (fun r => (r.2, r.1.garbage_head_, r.1.head_, (r.1.heap.cells 0).isSome,
        r.1.operations_counter_)) =
      some ([some 1], some 1, some 1, false, 0) := by
  constructor <;> decide

/-- C13 (queue structural invariant). After every sequential history on a new
`LockFreeQueue`, run with enough fuel: `head_` points to a live node `hd`;
following `next_` from `garbage_head_` through the retired nodes `g` arrives
at `head_`; following `next_` from `head_` through `hd` and the nodes `l`
arrives at null, `tail_` is the last of these nodes and its `next_` is null;
every node on the way is live and no node occurs twice; and the elements of
the nodes `l` after `head_` are, in order, the enqueued values not yet
dequeued. -/
theorem C13_queue_structure {T : Type} [Inhabited T] (fuel : Nat) (ops : List (QueueOp T))
    (hfuel : ops.length + 2 ≤ fuel) :
    ∃ q outs g hd l, runQueue fuel LockFreeQueue.new ops = some (q, outs) ∧
      QInv q g hd l ∧
      q.head_ = some hd.1 ∧ (∃ nx, q.heap.cells hd.1 = some ⟨hd.2, nx⟩) ∧
      Chain q.heap.cells q.garbage_head_ g q.head_ ∧
      Chain q.heap.cells q.head_ (hd :: l) none ∧
      q.tail_ = some (l.getLast?.getD hd).1 ∧
      (l.getLast?.getD hd) ∈ hd :: l ∧
      q.heap.cells (l.getLast?.getD hd).1 = some ⟨(l.getLast?.getD hd).2, none⟩ ∧
      (∀ x ∈ g ++ hd :: l, ∃ nx, q.heap.cells x.1 = some ⟨x.2, nx⟩) ∧
      ((g ++ hd :: l).map Prod.fst).Nodup ∧
      enqueued ops = outs.filterMap id ++ l.map Prod.snd := by
  obtain ⟨q, g, hd, l, hrun, inv, hl, _⟩ :=
    runQueue_refines ops LockFreeQueue.new [] (0, default) [] fuel QInv_new
      (by simp only [List.length_nil]; omega)
  simp only [List.map_nil] at hrun hl
  obtain ⟨m, hg, hlive⟩ := (Chain_append g (hd :: l) _ _).1 inv.chain
  have hm : m = some hd.1 := hlive.1
  subst hm
  have hlast : (l.getLast?.getD hd) ∈ hd :: l := by
    cases hl2 : l.getLast? with
    | none => simp
    | some y => simp [List.mem_of_mem_getLast? hl2]
  refine ⟨q, _, g, hd, l, hrun, inv, inv.head, ?_, ?_, ?_, inv.tail, hlast,
    QInv_tail_null inv, Chain_live _ _ _ inv.chain, inv.nodup, ?_⟩
  · exact Chain_live _ _ _ inv.chain hd (by simp)
  · rw [inv.head]; exact hg
  · rw [inv.head]; exact hlive
  · have := specQueue_split ops ([] : List T)
    rw [List.nil_append] at this
    rw [this, hl]

/-- Witness of C13: after enqueue 1, enqueue 2, dequeue the node holding 1 is
under `head_` and the node holding 2 is the only one behind it. -/
theorem C13_queue_structure_witness :
    ([QueueOp.enqueue 1, QueueOp.enqueue 2, QueueOp.dequeue] : List (QueueOp Nat)).length + 2
      ≤ 5 ∧
    (runQueue 5 (LockFreeQueue.new : LockFreeQueue Nat)
      [QueueOp.enqueue 1, QueueOp.enqueue 2, QueueOp.dequeue]).map
      (fun r => (r.2, r.1.garbage_head_, r.1.head_, r.1.tail_)) =
      some ([some 1], some 1, some 1, some 2) ∧
    (runQueue 5 (LockFreeQueue.new : LockFreeQueue Nat)
      [QueueOp.enqueue 1, QueueOp.enqueue 2, QueueOp.dequeue]).map
      (fun r => ((r.1.heap.cells 1).map (fun n => n.next_),
        (r.1.heap.cells 2).map (fun n => n.element_),
        (r.1.heap.cells 2).map (fun n => n.next_))) =
      some (some (some 2), some 2, some none) ∧
    ∃ q outs g hd l, runQueue 5 (LockFreeQueue.new : LockFreeQueue Nat)
        [QueueOp.enqueue 1, QueueOp.enqueue 2, QueueOp.dequeue] = some (q, outs) ∧
      QInv q g hd l ∧
      q.head_ = some hd.1 ∧ (∃ nx, q.heap.cells hd.1 = some ⟨hd.2, nx⟩) ∧
      Chain q.heap.cells q.garbage_head_ g q.head_ ∧
      Chain q.heap.cells q.head_ (hd :: l) none ∧
      q.tail_ = some (l.getLast?.getD hd).1 ∧
      (l.getLast?.getD hd) ∈ hd :: l ∧
      q.heap.cells (l.getLast?.getD hd).1 = some ⟨(l.getLast?.getD hd).2, none⟩ ∧
      (∀ x ∈ g ++ hd :: l, ∃ nx, q.heap.cells x.1 = some ⟨x.2, nx⟩) ∧
      ((g ++ hd :: l).map Prod.fst).Nodup ∧
      enqueued [QueueOp.enqueue 1, QueueOp.enqueue 2, QueueOp.dequeue] =
        outs.filterMap id ++ l.map Prod.snd :=
  ⟨by decide, by decide, by decide, C13_queue_structure 5 _ (by decide)⟩

/-! ## Stack: nothing is freed -/

section StackShape
variable {T : Type}

theorem runStack_shape (ops : List (StackOp T)) :
    ∀ (s : LockFreeStack T) (live garb : List (Nat × T)) (fuel : Nat), SInv s live garb →
      (∀ a, a < s.heap.fresh → a ∈ (live ++ garb).map Prod.fst) →
      (∀ op ∈ ops, op.spurious < fuel) →
      ∃ s2 outs live2 garb2, runStack fuel s ops = some (s2, outs) ∧ SInv s2 live2 garb2 ∧
        (∀ a, a < s2.heap.fresh → a ∈ (live2 ++ garb2).map Prod.fst) ∧
        s2.heap.fresh = s.heap.fresh + (pushed ops).length ∧
        garb2.map Prod.snd = (outs.filterMap id).reverse ++ garb.map Prod.snd ∧
        live2.length + garb2.length = live.length + garb.length + (pushed ops).length := by
  induction ops with
  | nil =>
    intro s live garb fuel inv hall _
    exact ⟨s, [], live, garb, rfl, inv, hall, by simp [pushed], by simp, by simp [pushed]⟩
  | cons op ops ih =>
    intro s live garb fuel inv hall hsp
    have hop := hsp op (List.mem_cons_self _ _)
    have hrest : ∀ o ∈ ops, o.spurious < fuel := fun o ho => hsp o (List.mem_cons_of_mem _ ho)
    cases op with
    | push v k =>
      simp only [StackOp.spurious] at hop
      obtain ⟨s1, hs1, inv1, hf1⟩ := Push_spec inv v fuel k (by omega)
      have hall1 : ∀ a, a < s1.heap.fresh →
          a ∈ (((s.heap.fresh, v) :: live) ++ garb).map Prod.fst := by
        intro a ha
        rw [hf1] at ha
        simp only [List.cons_append, List.map_cons, List.mem_cons]
        by_cases hlt : a < s.heap.fresh
        · exact Or.inr (hall a hlt)
        · exact Or.inl (by omega)
      obtain ⟨s2, outs, live2, garb2, hrun, inv2, hall2, hf2, hg2, hlen2⟩ :=
        ih s1 _ garb fuel inv1 hall1 hrest
      refine ⟨s2, outs, live2, garb2, ?_, inv2, hall2, ?_, hg2, ?_⟩
      · simp only [runStack, hs1, Option.bind_eq_bind, Option.some_bind]
        exact hrun
      · rw [hf2, hf1]; simp only [pushed, List.length_cons]; omega
      · rw [hlen2]; simp only [pushed, List.length_cons]; omega
    | pop k =>
      simp only [StackOp.spurious] at hop
      cases live with
      | nil =>
        have hs1 := Pop_spec_nil inv fuel k (by omega)
        obtain ⟨s2, outs, live2, garb2, hrun, inv2, hall2, hf2, hg2, hlen2⟩ :=
          ih s [] garb fuel inv hall hrest
        refine ⟨s2, none :: outs, live2, garb2, ?_, inv2, hall2, ?_, ?_, ?_⟩
        · simp [runStack, hs1, hrun]
        · rw [hf2]; simp [pushed]
        · simpa using hg2
        · rw [hlen2]; simp [pushed]
      | cons x live =>
        obtain ⟨s1, hs1, inv1, hf1⟩ := Pop_spec_cons inv fuel k (by omega)
        have hall1 : ∀ a, a < s1.heap.fresh → a ∈ (live ++ x :: garb).map Prod.fst := by
          intro a ha
          rw [hf1] at ha
          have := hall a ha
          simp only [List.cons_append, List.map_cons, List.map_append, List.mem_cons,
            List.mem_append] at this ⊢
          tauto
        obtain ⟨s2, outs, live2, garb2, hrun, inv2, hall2, hf2, hg2, hlen2⟩ :=
          ih s1 live (x :: garb) fuel inv1 hall1 hrest
        refine ⟨s2, some x.2 :: outs, live2, garb2, ?_, inv2, hall2, ?_, ?_, ?_⟩
        · simp [runStack, hs1, hrun]
        · rw [hf2, hf1]; simp [pushed]
        · rw [hg2]; simp
        · rw [hlen2]; simp only [pushed, List.length_cons]; omega

end StackShape

/-- C14 (the stack frees nothing before teardown). After every sequential
history on a new `LockFreeStack`, run with more fuel than the spurious
failures of any call: the nodes `live` are the chain from `top_` and the
nodes `garb` the chain from `garbage_top_`; the addresses handed out by
`Push` are exactly the addresses of `live` and `garb` together, none twice,
and every one of them is still live (no node was freed); the elements of
`garb` are the values returned by the successful `Pop` calls, most recent
first, so its length is the number of successful pops; and the length of
`live` is the number of pushes minus the number of successful pops. -/
theorem C14_stack_never_frees {T : Type} (fuel : Nat) (ops : List (StackOp T))
    (hops : ∀ op ∈ ops, op.spurious < fuel) :
    ∃ s outs live garb, runStack fuel LockFreeStack.new ops = some (s, outs) ∧
      Chain s.heap.cells s.top_ live none ∧ Chain s.heap.cells s.garbage_top_ garb none ∧
      s.heap.fresh = (pushed ops).length ∧
      (∀ a, a < s.heap.fresh ↔ a ∈ (live ++ garb).map Prod.fst) ∧
      ((live ++ garb).map Prod.fst).Nodup ∧
      (∀ a, a < s.heap.fresh → s.heap.cells a ≠ none) ∧
      garb.map Prod.snd = (outs.filterMap id).reverse ∧
      garb.length = (outs.filterMap id).length ∧
      live.length + (outs.filterMap id).length = (pushed ops).length := by
  obtain ⟨s, outs, live, garb, hrun, inv, hall, hf, hg, hlen⟩ :=
    runStack_shape ops LockFreeStack.new [] [] fuel SInv_new
      (by intro a ha; simp [LockFreeStack.new, Heap.empty] at ha) hops
  simp only [List.map_nil, List.append_nil, List.length_nil, Nat.zero_add] at hg hlen
  have hf2 : s.heap.fresh = (pushed ops).length := by
    rw [hf]; simp [LockFreeStack.new, Heap.empty]
  have hgl : garb.length = (outs.filterMap id).length := by
    have := congrArg List.length hg
    simpa using this
  have hmem : ∀ a, a ∈ (live ++ garb).map Prod.fst → a < s.heap.fresh := by
    intro a ha
    obtain ⟨x, hx, rfl⟩ := List.mem_map.1 ha
    exact SInv_lt_fresh inv hx
  refine ⟨s, outs, live, garb, hrun, inv.chain, inv.gchain, hf2,
    fun a => ⟨hall a, hmem a⟩, inv.nodup, ?_, hg, hgl, by omega⟩
  intro a ha hnone
  obtain ⟨x, hx, rfl⟩ := List.mem_map.1 (hall _ ha)
  have hc : ∃ nx, s.heap.cells x.1 = some ⟨x.2, nx⟩ := by
    rcases List.mem_append.1 hx with h | h
    · exact Chain_live _ _ _ inv.chain x h
    · exact Chain_live _ _ _ inv.gchain x h
  obtain ⟨nx, hc⟩ := hc
  rw [hnone] at hc
  cases hc

/-- Witness of C14: after push 1, push 2, push 3, pop, pop the node holding 1
is the live chain and the nodes holding 2 and 3 are the garbage chain, 2
first; all three addresses are live. -/
theorem C14_stack_never_frees_witness :
    (∀ op ∈ ([StackOp.push 1 0, StackOp.push 2 1, StackOp.push 3 0, StackOp.pop 2,
        StackOp.pop 0] : List (StackOp Nat)), op.spurious < 3) ∧
    (runStack 3 (LockFreeStack.new : LockFreeStack Nat)
      [StackOp.push 1 0, StackOp.push 2 1, StackOp.push 3 0, StackOp.pop 2, StackOp.pop 0]).map
      (fun r => (r.2, r.1.top_, r.1.garbage_top_, r.1.heap.fresh)) =
      some ([some 3, some 2], some 0, some 1, 3) ∧
    (runStack 3 (LockFreeStack.new : LockFreeStack Nat)
      [StackOp.push 1 0, StackOp.push 2 1, StackOp.push 3 0, StackOp.pop 2, StackOp.pop 0]).map
      (fun r => ((r.1.heap.cells 0).map (fun n => n.next_),
        (r.1.heap.cells 1).map (fun n => n.next_),
        (r.1.heap.cells 2).map (fun n => n.next_))) =
      some (some none, some (some 2), some none) ∧
    ∃ s outs live garb, runStack 3 (LockFreeStack.new : LockFreeStack Nat)
        [StackOp.push 1 0, StackOp.push 2 1, StackOp.push 3 0, StackOp.pop 2, StackOp.pop 0] =
        some (s, outs) ∧
      Chain s.heap.cells s.top_ live none ∧ Chain s.heap.cells s.garbage_top_ garb none ∧
      s.heap.fresh = (pushed
        [StackOp.push 1 0, StackOp.push 2 1, StackOp.push 3 0, StackOp.pop 2,
          StackOp.pop 0]).length ∧
      (∀ a, a < s.heap.fresh ↔ a ∈ (live ++ garb).map Prod.fst) ∧
      ((live ++ garb).map Prod.fst).Nodup ∧
      (∀ a, a < s.heap.fresh → s.heap.cells a ≠ none) ∧
      garb.map Prod.snd = (outs.filterMap id).reverse ∧
      garb.length = (outs.filterMap id).length ∧
      live.length + (outs.filterMap id).length = (pushed
        [StackOp.push 1 0, StackOp.push 2 1, StackOp.push 3 0, StackOp.pop 2,
          StackOp.pop 0]).length :=
  ⟨by simp [StackOp.spurious], by decide, by decide,
    C14_stack_never_frees 3 _ (by simp [StackOp.spurious])⟩

/-! ## Hash set: placement, stripes, load factor and frame -/

namespace StripedHashSet

set_option linter.unusedSectionVars false

variable {T : Type} [DecidableEq T] (hasher_ : T → Nat)

theorem ReachableExact_reachable {s : StripedHashSet T} (h : ReachableExact hasher_ s) :
    Reachable hasher_ s := by
  induction h with
  | new cl gf mlf _ _ _ => exact Reachable.new cl gf mlf
  | insert x _ _ hins ih => exact Reachable.insert x ih hins
  | remove x _ hrem ih => exact Reachable.remove x ih hrem

/-- Without overflow the bucket count is positive and a multiple of the
stripe count. -/
theorem ReachableExact_stripes {s : StripedHashSet T} (h : ReachableExact hasher_ s) :
    1 ≤ s.concurrency_level_ ∧ 1 ≤ s.growth_factor_ ∧ 0 < s.buckets_.length ∧
      s.concurrency_level_ ∣ s.buckets_.length := by
  induction h with
  | new cl gf mlf hcl hgf hlt =>
    refine ⟨hcl, hgf, ?_, ?_⟩
    · rw [new_length, Nat.mod_eq_of_lt hlt]; exact Nat.mul_pos hcl hgf
    · rw [new_length, Nat.mod_eq_of_lt hlt]; exact Nat.dvd_mul_right _ _
  | @insert s s2 r x hs hside hins ih =>
    obtain ⟨hcl, hgf, hpos, hdvd⟩ := ih
    have inv := Reachable_inv hasher_ (ReachableExact_reachable hasher_ hs)
    obtain ⟨_, _, hpos2, _, _, _, hc, hg, _⟩ := Insert_result hasher_ inv hins
    have hlen := Insert_length hasher_ inv hins
    refine ⟨hc ▸ hcl, hg ▸ hgf, hpos2, ?_⟩
    rw [hc, hlen]
    split
    · rename_i hcond
      rw [Nat.mod_eq_of_lt (hside hcond.1 hcond.2)]
      exact Dvd.dvd.mul_right hdvd _
    · exact hdvd
  | @remove s s2 r x hs hrem ih =>
    obtain ⟨hcl, hgf, hpos, hdvd⟩ := ih
    have inv := Reachable_inv hasher_ (ReachableExact_reachable hasher_ hs)
    obtain ⟨_, _, hlen, _, _, _, hc, hg, _⟩ := Remove_result hasher_ inv hrem
    exact ⟨hc ▸ hcl, hg ▸ hgf, hlen ▸ hpos, by rw [hc, hlen]; exact hdvd⟩

/-- A history checked by `exactHistory` stays within the exact states. -/
theorem exactHistory_reachable (ops : List (SetOp T)) :
    ∀ (s s2 : StripedHashSet T) (outs : List Bool), ReachableExact hasher_ s →
      exactHistory hasher_ s ops = true → runSet hasher_ s ops = some (s2, outs) →
      ReachableExact hasher_ s2 := by
  induction ops with
  | nil =>
    intro s s2 outs hs _ h
    simp only [runSet, Option.some.injEq, Prod.mk.injEq] at h
    rw [← h.1]; exact hs
  | cons op ops ih =>
    intro s s2 outs hs hex h
    cases op with
    | insert x =>
      simp only [runSet, Option.bind_eq_bind] at h
      cases hi : s.Insert hasher_ x with
      | none => simp [hi] at h
      | some r =>
        simp only [hi, Option.some_bind] at h
        simp only [exactHistory, hi, Bool.and_eq_true, decide_eq_true_eq] at hex
        cases hr : runSet hasher_ r.1 ops with
        | none => simp [hr] at h
        | some rest =>
          simp only [hr, Option.some_bind, Option.some.injEq, Prod.mk.injEq] at h
          have h1 : ReachableExact hasher_ r.1 :=
            ReachableExact.insert x hs (r := r.2) (fun _ _ => hex.1) hi
          have := ih r.1 rest.1 rest.2 h1 hex.2 hr
          rw [← h.1]; exact this
    | remove x =>
      simp only [runSet, Option.bind_eq_bind] at h
      cases hi : s.Remove hasher_ x with
      | none => simp [hi] at h
      | some r =>
        simp only [hi, Option.some_bind] at h
        simp only [exactHistory, hi] at hex
        cases hr : runSet hasher_ r.1 ops with
        | none => simp [hr] at h
        | some rest =>
          simp only [hr, Option.some_bind, Option.some.injEq, Prod.mk.injEq] at h
          have h1 : ReachableExact hasher_ r.1 := ReachableExact.remove x hs (r := r.2) hi
          have := ih r.1 rest.1 rest.2 h1 hex hr
          rw [← h.1]; exact this
    | contains x =>
      simp only [runSet, Option.bind_eq_bind] at h
      simp only [exactHistory] at hex
      cases hi : s.Contains hasher_ x with
      | none => simp [hi] at h
      | some r =>
        simp only [hi, Option.some_bind] at h
        cases hr : runSet hasher_ s ops with
        | none => simp [hr] at h
        | some rest =>
          simp only [hr, Option.some_bind, Option.some.injEq, Prod.mk.injEq] at h
          have := ih s rest.1 rest.2 hs hex hr
          rw [← h.1]; exact this

/-- With growth factor 3 and threshold 3/4 the load factor stays below the
threshold, as long as no bucket-count product overflows. -/
theorem ReachableExact_load {s : StripedHashSet T} (h : ReachableExact hasher_ s) :
    s.growth_factor_ = 3 → s.max_load_factor_ = 3 / 4 →
      4 * s.num_elements_ < 3 * s.buckets_.length := by
  induction h with
  | new cl gf mlf hcl hgf hlt =>
    intro _ _
    have : 0 < (StripedHashSet.new cl gf mlf : StripedHashSet T).buckets_.length := by
      rw [new_length, Nat.mod_eq_of_lt hlt]; exact Nat.mul_pos hcl hgf
    show 4 * 0 < _
    omega
  | @insert s s2 r x hs hside hins ih =>
    intro hgf hmlf
    have inv := Reachable_inv hasher_ (ReachableExact_reachable hasher_ hs)
    obtain ⟨_, hpos, _, _, _, hnum, _, hg, hm⟩ := Insert_result hasher_ inv hins
    have hlen := Insert_length hasher_ inv hins
    rw [hg] at hgf
    rw [hm] at hmlf
    have ih2 := ih hgf hmlf
    cases r with
    | false =>
      simp only [Bool.false_eq_true, false_and, if_false] at hlen hnum
      rw [hlen, hnum]; exact ih2
    | true =>
      simp only [true_and, if_true] at hlen hnum
      rw [hnum]
      cases hdue : s.ResizeDue with
      | true =>
        rw [hdue, if_pos rfl, Nat.mod_eq_of_lt (hside rfl hdue), hgf] at hlen
        rw [hlen]; omega
      | false =>
        rw [hdue] at hlen
        simp only [Bool.false_eq_true, if_false] at hlen
        rw [hlen]
        have hnd : ¬ (s.max_load_factor_ ≤
            ((s.num_elements_ + 1 : Nat) : ℚ) / (s.buckets_.length : ℚ)) := by
          intro hc
          have := (ResizeDue_iff s).2 hc
          rw [hdue] at this
          cases this
        rw [hmlf, not_le] at hnd
        have hb : (0 : ℚ) < (s.buckets_.length : ℚ) := by exact_mod_cast hpos
        rw [div_lt_iff₀ hb] at hnd
        have h4 : (4 : ℚ) * ((s.num_elements_ + 1 : Nat) : ℚ) < 3 * (s.buckets_.length : ℚ) := by
          linarith
        exact_mod_cast h4
  | @remove s s2 r x hs hrem ih =>
    intro hgf hmlf
    have inv := Reachable_inv hasher_ (ReachableExact_reachable hasher_ hs)
    obtain ⟨_, _, hlen, _, _, hnum, _, hg, hm⟩ := Remove_result hasher_ inv hrem
    rw [hg] at hgf
    rw [hm] at hmlf
    have ih2 := ih hgf hmlf
    rw [hlen, hnum]
    split <;> omega

end StripedHashSet

section SetInvariantClaims

open StripedHashSet

/-- C15 (hash-set placement invariant). In every state reachable by a
sequential history every stored element `x` sits in the bucket with index
`hash(x) mod (bucket count)`, no value occurs twice in the bucket array (no
chain holds a value twice, and a value found in two buckets is found in the
same bucket), and `Resize`, run on a state with the invariant, returns a
state with the invariant. -/
theorem C15_placement {T : Type} [DecidableEq T] (hasher_ : T → Nat) (s : StripedHashSet T)
    (hreach : Reachable hasher_ s) :
    (∀ i bucket, s.buckets_[i]? = some bucket →
      ∀ x ∈ bucket, hasher_ x % s.buckets_.length = i) ∧
    s.buckets_.flatten.Nodup ∧
    (∀ bucket ∈ s.buckets_, bucket.Nodup) ∧
    (∀ (i j : Nat) (b c : List T) (x : T), s.buckets_[i]? = some b →
      s.buckets_[j]? = some c → x ∈ b → x ∈ c → i = j) ∧
    (∀ t t2 : StripedHashSet T, HInv hasher_ t → t.Resize hasher_ = some t2 →
      Placed hasher_ t2.buckets_ ∧ t2.buckets_.flatten.Nodup) := by
  have inv := Reachable_inv hasher_ hreach
  refine ⟨inv.placed, inv.nodup, ?_, ?_, ?_⟩
  · intro bucket hb
    exact (List.nodup_flatten.1 inv.nodup).1 bucket hb
  · intro i j b c x hb hc hxb hxc
    rw [← inv.placed i b hb x hxb, ← inv.placed j c hc x hxc]
  · intro t t2 ht h
    have := (Resize_result hasher_ ht h).1
    exact ⟨this.placed, this.nodup⟩

/-- Witness of C15: the set holding 1, 2, 3, 4 in 6 buckets. -/
theorem C15_placement_witness :
    Reachable id exampleSet4 ∧
    ((∀ i bucket, exampleSet4.buckets_[i]? = some bucket →
      ∀ x ∈ bucket, id x % exampleSet4.buckets_.length = i) ∧
    exampleSet4.buckets_.flatten.Nodup ∧
    (∀ bucket ∈ exampleSet4.buckets_, bucket.Nodup) ∧
    (∀ (i j : Nat) (b c : List Nat) (x : Nat), exampleSet4.buckets_[i]? = some b →
      exampleSet4.buckets_[j]? = some c → x ∈ b → x ∈ c → i = j) ∧
    (∀ t t2 : StripedHashSet Nat, HInv id t → t.Resize id = some t2 →
      Placed id t2.buckets_ ∧ t2.buckets_.flatten.Nodup)) :=
  have hreach : Reachable id exampleSet4 :=
    runSet_reachable id [SetOp.insert 1, SetOp.insert 2, SetOp.insert 3, SetOp.insert 4] _ _
      [true, true, true, true] (Reachable.new 2 3 (3 / 4)) (by decide!)
  ⟨hreach, C15_placement id exampleSet4 hreach⟩

/-- C16 (every bucket is guarded by one stripe). With
`concurrency_level >= 1` and `growth_factor >= 1`, in every state reachable
by a sequential history in which no bucket-count product overflowed, the
stripe count and the bucket count are positive and the bucket count is a
multiple of the stripe count; so `GetBucketIndex` and `GetStripeIndex` never
take a remainder modulo zero, and two hash values that select the same bucket
select the same stripe. -/
theorem C16_stripes {T : Type} [DecidableEq T] (hasher_ : T → Nat) (s : StripedHashSet T)
    (hreach : ReachableExact hasher_ s) :
    1 ≤ s.concurrency_level_ ∧ 0 < s.buckets_.length ∧
    s.concurrency_level_ ∣ s.buckets_.length ∧
    (∀ h, GetBucketIndex h s.buckets_.length = some (h % s.buckets_.length)) ∧
    (∀ h, s.GetStripeIndex h = some (h % s.concurrency_level_)) ∧
    (∀ h1 h2, h1 % s.buckets_.length = h2 % s.buckets_.length →
      h1 % s.concurrency_level_ = h2 % s.concurrency_level_) := by
  obtain ⟨hcl, _, hpos, hdvd⟩ := ReachableExact_stripes hasher_ hreach
  refine ⟨hcl, hpos, hdvd, ?_, ?_, ?_⟩
  · intro h
    simp [GetBucketIndex, Nat.ne_of_gt hpos]
  · intro h
    have : s.concurrency_level_ ≠ 0 := by omega
    simp [GetStripeIndex, this]
  · intro h1 h2 h
    rw [← Nat.mod_mod_of_dvd h1 hdvd, ← Nat.mod_mod_of_dvd h2 hdvd, h]

/-- Witness of C16: 2 stripes, growth factor 3; after the resize to 18
buckets the hash values 1 and 19 select bucket 1 and stripe 1. -/
theorem C16_stripes_witness :
    ReachableExact id exampleSet5 ∧
    (1 ≤ exampleSet5.concurrency_level_ ∧ 0 < exampleSet5.buckets_.length ∧
    exampleSet5.concurrency_level_ ∣ exampleSet5.buckets_.length ∧
    (∀ h, GetBucketIndex h exampleSet5.buckets_.length =
      some (h % exampleSet5.buckets_.length)) ∧
    (∀ h, exampleSet5.GetStripeIndex h = some (h % exampleSet5.concurrency_level_)) ∧
    (∀ h1 h2, h1 % exampleSet5.buckets_.length = h2 % exampleSet5.buckets_.length →
      h1 % exampleSet5.concurrency_level_ = h2 % exampleSet5.concurrency_level_)) ∧
    GetBucketIndex 19 exampleSet5.buckets_.length = some 1 ∧
    exampleSet5.GetStripeIndex 19 = some 1 ∧ exampleSet5.GetStripeIndex 1 = some 1 :=
  have hreach : ReachableExact id exampleSet5 :=
    exactHistory_reachable id
      [SetOp.insert 1, SetOp.insert 2, SetOp.insert 3, SetOp.insert 4, SetOp.insert 5] _ _
      [true, true, true, true, true]
      (ReachableExact.new 2 3 (3 / 4) (by decide) (by decide) (by decide))
      (by decide!) (by decide!)
  ⟨hreach, C16_stripes id exampleSet5 hreach, by decide, by decide, by decide⟩

/-- C18 (load factor below the threshold with the default parameters). With
`growth_factor = 3` and `max_load_factor = 3/4`, in every state reachable by
a sequential history from a set with `concurrency_level >= 1` in which no
bucket-count product overflowed, `4 * (element count) < 3 * (bucket count)`:
the load factor is below 3/4 after construction and after every completed
call, so one resize per threshold-crossing `Insert` is enough. -/
theorem C18_load_factor {T : Type} [DecidableEq T] (hasher_ : T → Nat) (s : StripedHashSet T)
    (hreach : ReachableExact hasher_ s) (hgf : s.growth_factor_ = 3)
    (hmlf : s.max_load_factor_ = 3 / 4) :
    4 * s.Size < 3 * s.buckets_.length ∧ s.GetLoadFactor < 3 / 4 ∧ s.NeedToResize = false := by
  have h := ReachableExact_load hasher_ hreach hgf hmlf
  have hpos : 0 < s.buckets_.length := (ReachableExact_stripes hasher_ hreach).2.2.1
  have hb : (0 : ℚ) < (s.buckets_.length : ℚ) := by exact_mod_cast hpos
  have hq : s.GetLoadFactor < 3 / 4 := by
    unfold GetLoadFactor
    rw [div_lt_iff₀ hb]
    have : (4 : ℚ) * (s.num_elements_ : ℚ) < 3 * (s.buckets_.length : ℚ) := by exact_mod_cast h
    linarith
  refine ⟨h, hq, ?_⟩
  simp only [NeedToResize, hmlf, decide_eq_false_iff_not, not_le]
  exact hq

/-- Witness of C18: the set holding 1 to 5 after its resize to 18 buckets. -/
theorem C18_load_factor_witness :
    ReachableExact id exampleSet5 ∧ exampleSet5.growth_factor_ = 3 ∧
    exampleSet5.max_load_factor_ = 3 / 4 ∧
    (4 * exampleSet5.Size < 3 * exampleSet5.buckets_.length ∧
      exampleSet5.GetLoadFactor < 3 / 4 ∧ exampleSet5.NeedToResize = false) :=
  have hreach : ReachableExact id exampleSet5 :=
    exactHistory_reachable id
      [SetOp.insert 1, SetOp.insert 2, SetOp.insert 3, SetOp.insert 4, SetOp.insert 5] _ _
      [true, true, true, true, true]
      (ReachableExact.new 2 3 (3 / 4) (by decide) (by decide) (by decide))
      (by decide!) (by decide!)
  ⟨hreach, rfl, rfl, C18_load_factor id exampleSet5 hreach rfl rfl⟩

/-- C19 (hash-set calls touch only their own element). In every state `s`
reachable by a sequential history and for all values `x` and `y` with
`x != y`, `Contains(x)` returns the same after a completed `Insert(y)` and
after a completed `Remove(y)` as before, resize or not, same hash or not; an
`Insert` that returns `false` and a `Remove` that returns `false` leave the
whole state, bucket array and element count, as it was (`Contains` cannot
change the state). -/
theorem C19_frame {T : Type} [DecidableEq T] (hasher_ : T → Nat) (s : StripedHashSet T)
    (x y : T) (hreach : Reachable hasher_ s) (hxy : x ≠ y) :
    (∀ s2 r, s.Insert hasher_ y = some (s2, r) →
      s2.Contains hasher_ x = s.Contains hasher_ x) ∧
    (∀ s2 r, s.Remove hasher_ y = some (s2, r) →
      s2.Contains hasher_ x = s.Contains hasher_ x) ∧
    (∀ s2, s.Insert hasher_ y = some (s2, false) → s2 = s) ∧
    (∀ s2, s.Remove hasher_ y = some (s2, false) → s2 = s) := by
  have inv := Reachable_inv hasher_ hreach
  refine ⟨?_, ?_, ?_, ?_⟩
  · intro s2 r h
    obtain ⟨inv2, hl, hl2, _, hperm, _⟩ := Insert_result hasher_ inv h
    rw [Contains_eq hasher_ inv hl, Contains_eq hasher_ inv2 hl2]
    congr 1
    rw [decide_eq_decide, hperm.mem_iff]
    split
    · simp [hxy]
    · rfl
  · intro s2 r h
    obtain ⟨inv2, hl, hlen, _, hperm, _⟩ := Remove_result hasher_ inv h
    rw [Contains_eq hasher_ inv hl, Contains_eq hasher_ inv2 (by rw [hlen]; exact hl)]
    congr 1
    rw [decide_eq_decide, ← hperm.mem_iff]
    split
    · simp [hxy]
    · rfl
  · intro s2 h
    obtain ⟨_, hl, _, hr, _⟩ := Insert_result hasher_ inv h
    have hy : y ∈ s.buckets_.flatten := by simpa using hr
    rw [Insert_found hasher_ inv hl hy] at h
    cases h
    rfl
  · intro s2 h
    obtain ⟨_, hl, _, hr, _⟩ := Remove_result hasher_ inv h
    have hy : y ∉ s.buckets_.flatten := by simpa using hr
    rw [Remove_absent hasher_ inv hl hy] at h
    cases h
    rfl

/-- Witness of C19: in the set holding 1, 2, 3, 4 in 6 buckets the values 1
and 7 share bucket 1; inserting 7 resizes to 18 buckets and `Contains(1)`
is `true` before and after. -/
theorem C19_frame_witness :
    Reachable id exampleSet4 ∧ (1 : Nat) ≠ 7 ∧ id 1 % 6 = id 7 % 6 ∧
    exampleSet4.Contains id 1 = some true ∧
    ((exampleSet4.Insert id 7).map (fun r => (r.1.buckets_.length, r.2)) = some (18, true)) ∧
    ((∀ s2 r, exampleSet4.Insert id 7 = some (s2, r) →
      s2.Contains id 1 = exampleSet4.Contains id 1) ∧
    (∀ s2 r, exampleSet4.Remove id 7 = some (s2, r) →
      s2.Contains id 1 = exampleSet4.Contains id 1) ∧
    (∀ s2, exampleSet4.Insert id 7 = some (s2, false) → s2 = exampleSet4) ∧
    (∀ s2, exampleSet4.Remove id 7 = some (s2, false) → s2 = exampleSet4)) :=
  have hreach : Reachable id exampleSet4 :=
    runSet_reachable id [SetOp.insert 1, SetOp.insert 2, SetOp.insert 3, SetOp.insert 4] _ _
      [true, true, true, true] (Reachable.new 2 3 (3 / 4)) (by decide!)
  ⟨hreach, by decide, by decide, by decide!, by decide!,
    C19_frame id exampleSet4 1 7 hreach (by decide)⟩

end SetInvariantClaims

/-! ## Readers-writer lock: exclusion -/

section MutexProofs

open ReadWriteMutex

/-- Invariant of the lock along a trace whose requests do not wrap the
counters: `writing_` excludes readers and counts as one of the `writers_`; the
exclusive grants not yet released are one when `writing_` and none otherwise;
the shared grants not yet released are `readers_`. -/
theorem run_invariant (es : List RWStep) :
    ∀ (m m2 : ReadWriteMutex),
      (m.writing_ = true → m.readers_ = 0 ∧ 1 ≤ m.writers_) →
      m.writers_ + es.count RWStep.lock_enter < SIZE_T_RANGE →
      m.readers_ + es.count RWStep.lock_shared < SIZE_T_RANGE →
      run m es = some m2 →
      (m2.writing_ = true → m2.readers_ = 0 ∧ 1 ≤ m2.writers_) ∧
      es.count RWStep.lock_acquire + (if m.writing_ then 1 else 0) =
        es.count RWStep.unlock + (if m2.writing_ then 1 else 0) ∧
      es.count RWStep.lock_shared + m.readers_ =
        es.count RWStep.unlock_shared + m2.readers_ ∧
      m2.writers_ < SIZE_T_RANGE ∧ m2.readers_ < SIZE_T_RANGE := by
  induction es with
  | nil =>
    intro m m2 hinv hW hR h
    simp only [run, Option.some.injEq] at h
    subst h
    simp only [List.count_nil, Nat.add_zero] at hW hR
    exact ⟨hinv, by simp, by simp, hW, hR⟩
  | cons e es ih =>
    intro m m2 hinv hW hR h
    simp only [run] at h
    cases hs : m.step e with
    | none => simp [hs] at h
    | some m1 =>
      simp only [hs, Option.some_bind] at h
      cases e with
      | lock_enter =>
        rw [List.count_cons_self] at hW
        rw [List.count_cons_of_ne (by decide)] at hR
        simp only [step, Option.some.injEq] at hs
        have e1 : m1.readers_ = m.readers_ := by rw [← hs]
        have e2 : m1.writers_ = m.writers_ + 1 := by
          rw [← hs]
          exact Nat.mod_eq_of_lt (by omega)
        have e3 : m1.writing_ = m.writing_ := by rw [← hs]
        obtain ⟨h1, h2, h3, h4⟩ := ih m1 m2
          (fun hw => by
            rw [e3] at hw
            exact ⟨e1 ▸ (hinv hw).1, by omega⟩) (by omega) (by omega) h
        rw [e3] at h2
        rw [e1] at h3
        refine ⟨h1, ?_, ?_, h4⟩
        · rw [List.count_cons_of_ne (by decide), List.count_cons_of_ne (by decide)]
          exact h2
        · rw [List.count_cons_of_ne (by decide), List.count_cons_of_ne (by decide)]
          exact h3
      | lock_acquire =>
        rw [List.count_cons_of_ne (by decide)] at hW hR
        simp only [step] at hs
        split at hs
        · cases hs
        · rename_i hg
          split at hs
          · cases hs
          · rename_i hw
            simp only [Option.some.injEq] at hs
            simp only [Bool.or_eq_true, decide_eq_true_eq, not_or, Bool.not_eq_true,
              Decidable.not_not] at hg
            have e1 : m1.readers_ = m.readers_ := by rw [← hs]
            have e2 : m1.writers_ = m.writers_ := by rw [← hs]
            have e3 : m1.writing_ = true := by rw [← hs]
            obtain ⟨h1, h2, h3, h4⟩ := ih m1 m2
              (fun _ => ⟨by rw [e1]; exact hg.2, by omega⟩) (by omega) (by omega) h
            rw [e3] at h2
            rw [e1] at h3
            refine ⟨h1, ?_, ?_, h4⟩
            · rw [List.count_cons_self, List.count_cons_of_ne (by decide), hg.1]
              simp only [if_true, Bool.false_eq_true, if_false] at h2 ⊢
              omega
            · rw [List.count_cons_of_ne (by decide), List.count_cons_of_ne (by decide)]
              exact h3
      | lock_shared =>
        rw [List.count_cons_of_ne (by decide)] at hW
        rw [List.count_cons_self] at hR
        simp only [step] at hs
        split at hs
        · cases hs
        · rename_i hg
          simp only [Option.some.injEq] at hs
          simp only [Bool.or_eq_true, decide_eq_true_eq, not_or, Bool.not_eq_true,
            Decidable.not_not] at hg
          have e1 : m1.readers_ = m.readers_ + 1 := by
            rw [← hs]
            exact Nat.mod_eq_of_lt (by omega)
          have e2 : m1.writers_ = m.writers_ := by rw [← hs]
          have e3 : m1.writing_ = m.writing_ := by rw [← hs]
          obtain ⟨h1, h2, h3, h4⟩ := ih m1 m2
            (fun hw => by rw [e3, hg.1] at hw; cases hw) (by omega) (by omega) h
          rw [e3] at h2
          rw [e1] at h3
          refine ⟨h1, ?_, ?_, h4⟩
          · rw [List.count_cons_of_ne (by decide), List.count_cons_of_ne (by decide)]
            exact h2
          · rw [List.count_cons_self, List.count_cons_of_ne (by decide)]
            omega
      | unlock =>
        rw [List.count_cons_of_ne (by decide)] at hW hR
        simp only [step] at hs
        split at hs
        · rename_i hw
          simp only [Option.some.injEq] at hs
          have e1 : m1.readers_ = m.readers_ := by rw [← hs]
          have e2 : m1.writers_ + 1 = m.writers_ := by
            have := (hinv hw).2
            rw [← hs]
            simp only [pred]
            split <;> omega
          have e3 : m1.writing_ = false := by rw [← hs]
          obtain ⟨h1, h2, h3, h4⟩ := ih m1 m2
            (fun hw2 => by rw [e3] at hw2; cases hw2) (by omega) (by omega) h
          rw [e3] at h2
          rw [e1] at h3
          refine ⟨h1, ?_, ?_, h4⟩
          · rw [List.count_cons_of_ne (by decide), List.count_cons_self, hw]
            simp only [if_true, Bool.false_eq_true, if_false] at h2 ⊢
            omega
          · rw [List.count_cons_of_ne (by decide), List.count_cons_of_ne (by decide)]
            exact h3
        · cases hs
      | unlock_shared =>
        rw [List.count_cons_of_ne (by decide)] at hW hR
        simp only [step] at hs
        split at hs
        · cases hs
        · rename_i hr
          simp only [Option.some.injEq] at hs
          have hwf : m.writing_ = false := by
            cases hw : m.writing_ with
            | false => rfl
            | true => exact absurd (hinv hw).1 hr
          have e1 : m1.readers_ + 1 = m.readers_ := by
            rw [← hs]
            simp only [pred, hr, if_false]
            omega
          have e2 : m1.writers_ = m.writers_ := by rw [← hs]
          have e3 : m1.writing_ = m.writing_ := by rw [← hs]
          obtain ⟨h1, h2, h3, h4⟩ := ih m1 m2
            (fun hw2 => by rw [e3, hwf] at hw2; cases hw2) (by omega) (by omega) h
          rw [e3] at h2
          refine ⟨h1, ?_, ?_, h4⟩
          · rw [List.count_cons_of_ne (by decide), List.count_cons_of_ne (by decide)]
            exact h2
          · rw [List.count_cons_of_ne (by decide), List.count_cons_self]
            omega

end MutexProofs

/-- C17 (`ReadWriteMutex` exclusion). In every state `m` reached from the new
lock by a trace `es` of its atomic steps with fewer than `2^64` writer
requests and fewer than `2^64` reader grants (so that no increment wraps):
`writing_` and `readers_ > 0` never hold together; the exclusive grants not
yet released number one when `writing_` is set and none otherwise, so at most
one thread holds the exclusive lock, and none while a shared grant is
unreleased; the shared grants not yet released are `readers_`; `writing_`
implies `writers_ >= 1`, so the decrements of `unlock` and `unlock_shared`
never wrap; and a reader is granted only when no writer is pending or
writing. -/
theorem C17_mutex_exclusion (es : List RWStep) (m : ReadWriteMutex)
    (hW : es.count RWStep.lock_enter < SIZE_T_RANGE)
    (hR : es.count RWStep.lock_shared < SIZE_T_RANGE)
    (hrun : ReadWriteMutex.run ReadWriteMutex.new es = some m) :
    ¬ (m.writing_ = true ∧ 0 < m.readers_) ∧
    (m.writing_ = true → 1 ≤ m.writers_) ∧
    es.count RWStep.lock_acquire =
      es.count RWStep.unlock + (if m.writing_ then 1 else 0) ∧
    es.count RWStep.lock_acquire ≤ es.count RWStep.unlock + 1 ∧
    es.count RWStep.lock_shared = es.count RWStep.unlock_shared + m.readers_ ∧
    (es.count RWStep.unlock < es.count RWStep.lock_acquire →
      es.count RWStep.lock_shared = es.count RWStep.unlock_shared) ∧
    (∀ m2, m.step RWStep.unlock = some m2 →
      m2.writers_ + 1 = m.writers_ ∧ m2.writing_ = false) ∧
    (∀ m2, m.step RWStep.unlock_shared = some m2 → m2.readers_ + 1 = m.readers_) ∧
    (∀ m2, m.step RWStep.lock_shared = some m2 → m.writing_ = false ∧ m.writers_ = 0) ∧
    (∀ m2, m.step RWStep.lock_acquire = some m2 → m.writing_ = false ∧ m.readers_ = 0) := by
  obtain ⟨h1, h2, h3, -⟩ := run_invariant es ReadWriteMutex.new m
    (fun hw => by simp [ReadWriteMutex.new] at hw)
    (by simpa [ReadWriteMutex.new] using hW) (by simpa [ReadWriteMutex.new] using hR) hrun
  simp only [ReadWriteMutex.new, Bool.false_eq_true, if_false, Nat.add_zero] at h2 h3
  refine ⟨?_, fun hw => (h1 hw).2, h2, ?_, h3, ?_, ?_, ?_, ?_, ?_⟩
  · rintro ⟨hw, hr⟩
    have := (h1 hw).1
    omega
  · rw [h2]; split <;> omega
  · intro hlt
    have hw : m.writing_ = true := by
      cases hw : m.writing_ with
      | true => rfl
      | false => rw [hw] at h2; simp only [Bool.false_eq_true, if_false] at h2; omega
    rw [h3, (h1 hw).1, Nat.add_zero]
  · intro m2 hs
    simp only [ReadWriteMutex.step] at hs
    split at hs
    · rename_i hw
      simp only [Option.some.injEq] at hs
      have := (h1 hw).2
      have e2 : m2.writers_ = ReadWriteMutex.pred m.writers_ := by rw [← hs]
      have e3 : m2.writing_ = false := by rw [← hs]
      refine ⟨?_, e3⟩
      rw [e2]
      simp only [ReadWriteMutex.pred]
      split <;> omega
    · cases hs
  · intro m2 hs
    simp only [ReadWriteMutex.step] at hs
    split at hs
    · cases hs
    · rename_i hr
      simp only [Option.some.injEq] at hs
      rw [← hs]
      simp only [ReadWriteMutex.pred, hr, if_false]
      omega
  · intro m2 hs
    simp only [ReadWriteMutex.step] at hs
    split at hs
    · cases hs
    · rename_i hg
      simpa using hg
  · intro m2 hs
    simp only [ReadWriteMutex.step] at hs
    split at hs
    · cases hs
    · rename_i hg
      simpa using hg

/-- Witness of C17: two readers come and go, two writers queue up; the
first is granted and a reader is refused, and after its `unlock` the second
writer is granted. -/
theorem C17_mutex_exclusion_witness :
    ReadWriteMutex.run ReadWriteMutex.new
      [RWStep.lock_shared, RWStep.lock_shared, RWStep.lock_enter, RWStep.unlock_shared,
        RWStep.unlock_shared, RWStep.lock_enter, RWStep.lock_acquire] =
      some { readers_ := 0, writers_ := 2, writing_ := true } ∧
    ({ readers_ := 0, writers_ := 2, writing_ := true } : ReadWriteMutex).step
      RWStep.lock_shared = none ∧
    ({ readers_ := 0, writers_ := 2, writing_ := true } : ReadWriteMutex).step
      RWStep.lock_acquire = none ∧
    ({ readers_ := 1, writers_ := 1, writing_ := false } : ReadWriteMutex).step
      RWStep.lock_acquire = none ∧
    ReadWriteMutex.run { readers_ := 0, writers_ := 2, writing_ := true }
      [RWStep.unlock, RWStep.lock_acquire] =
      some { readers_ := 0, writers_ := 1, writing_ := true } ∧
    ¬ ((({ readers_ := 0, writers_ := 2, writing_ := true } : ReadWriteMutex).writing_ = true) ∧
      0 < ({ readers_ := 0, writers_ := 2, writing_ := true } : ReadWriteMutex).readers_) :=
  ⟨by decide, by decide, by decide, by decide, by decide,
    (C17_mutex_exclusion
      [RWStep.lock_shared, RWStep.lock_shared, RWStep.lock_enter, RWStep.unlock_shared,
        RWStep.unlock_shared, RWStep.lock_enter, RWStep.lock_acquire]
      { readers_ := 0, writers_ := 2, writing_ := true }
      (by decide) (by decide) (by decide)).1⟩

end Concurrency
